import Mathlib

/-!
# Sieve cache: a shallow embedding of `main.go`

The Go program keeps a `sync.Map` from string keys to `CacheItem`s, admits a
write only when the caller's filter accepts it, stamps every admitted entry with
the Unix second of `time.Now().Add(ttl)`, and treats an entry as expired when the
Unix second of the read is strictly greater than that stamp.

Modelling choices:

* `time.Time` is the integer number of nanoseconds since the Unix epoch, a
  `time.Duration` is an integer number of nanoseconds.  Go keeps an instant as
  64-bit seconds plus nanoseconds, so `Add` on a clock reading never saturates
  and `Unix` is the floor of the instant in seconds.
* `interface{}` is `Any V = Option V`: `none` is the nil interface, `some x` a
  dynamic value `x`.
* `sync.Map` is an association list read by first match; `Store` replaces the
  first binding of the key or appends one, `Delete` removes every binding of the
  key, `Range` walks a snapshot of the bindings.
* A Go panic is the error side of `Except Panic`.
* `time.Now()` is an explicit argument of every operation that reads the clock.
* A ticker created at `t0` with period `p` ticks at `t0 + p`, `t0 + 2p`, and so on.
* For interleavings, `Get` is split at the only point where another goroutine can
  run between two of its map operations: after `Load` and before `Delete`.
* Statements about whole maps assume one binding per key (`SyncMap.WF`), which
  holds for the empty store and is kept by every operation.
-/

namespace Sieve

/-! ## Time -/

/-- Instant of the wall clock, in nanoseconds since the Unix epoch (`time.Time`). -/
abbrev Time := Int

/-- Signed span of nanoseconds (`time.Duration`). -/
abbrev Duration := Int

/-- Go constant `time.Second`. -/
def Second : Duration := 1000000000

/-- Go method `Time.Add`. -/
def Time.Add (t : Time) (d : Duration) : Time := t + d

/-- Go method `Time.Unix`: whole seconds since the epoch, rounded down. -/
def Time.Unix (t : Time) : Int := t / 1000000000

/-! ## Panics, channels, tickers -/

/-- Run-time panics the program can raise. -/
inductive Panic where
  /-- Panic of `close` on a channel that is already closed. -/
  | closeOfClosedChannel
  /-- Panic of `time.NewTicker` on a duration that is not positive. -/
  | nonPositiveInterval
  /-- Panic raised inside the caller's filter function. -/
  | inFilter (msg : String)
  deriving DecidableEq, Repr

/-- State of `chan struct{}` that is only ever closed. -/
structure Chan where
  closed : Bool
  deriving DecidableEq, Repr

/-- Go builtin `make(chan struct{})`. -/
def Chan.make : Chan := { closed := false }

/-- Go builtin `close`: closing a closed channel panics. -/
def Chan.close (ch : Chan) : Except Panic Chan :=
  if ch.closed then .error .closeOfClosedChannel else .ok { closed := true }

/-- State of `*time.Ticker`: its period and whether `Stop` was called on it. -/
structure Ticker where
  period : Duration
  stopped : Bool
  deriving DecidableEq, Repr

/-- Go function `time.NewTicker`: panics unless the period is greater than zero. -/
def NewTicker (d : Duration) : Except Panic Ticker :=
  if d ≤ 0 then .error .nonPositiveInterval else .ok { period := d, stopped := false }

/-- Go method `Ticker.Stop`. -/
def Ticker.Stop (t : Ticker) : Ticker := { t with stopped := true }

/-! ## Values and the concurrent map -/

/-- Go `interface{}` over the dynamic values `V`; `none` is nil. -/
abbrev Any (V : Type) := Option V

/-- Go `sync.Map` with string keys, as an association list read by first match. -/
abbrev SyncMap (β : Type) := List (String × β)

/-- Go method `sync.Map.Load`. -/
def SyncMap.Load {β : Type} : SyncMap β → String → Option β
  | [], _ => none
  | (k, v) :: m, key => if k = key then some v else SyncMap.Load m key

/-- Go method `sync.Map.Store`. -/
def SyncMap.Store {β : Type} : SyncMap β → String → β → SyncMap β
  | [], key, value => [(key, value)]
  | (k, v) :: m, key, value =>
    if k = key then (key, value) :: m else (k, v) :: SyncMap.Store m key value

/-- Go method `sync.Map.Delete`. -/
def SyncMap.Delete {β : Type} : SyncMap β → String → SyncMap β
  | [], _ => []
  | (k, v) :: m, key =>
    if k = key then SyncMap.Delete m key else (k, v) :: SyncMap.Delete m key

/-- Go method `sync.Map.Range` over a snapshot of the bindings: the callback runs
on each binding in turn, threading the state it mutates, until it returns false. -/
def SyncMap.Range {β σ : Type} (f : σ → String → β → σ × Bool) : SyncMap β → σ → σ
  | [], s => s
  | (k, v) :: m, s =>
    match f s k v with
    | (s1, true) => SyncMap.Range f m s1
    | (s1, false) => s1

/-! ## The cache -/

/-- Go struct `CacheItem`. -/
structure CacheItem (V : Type) where
  Value : Any V
  Expiration : Int

/-- Go struct `SieveCache`.  The filter is a Go function value, which may panic. -/
structure SieveCache (V : Type) where
  store : SyncMap (CacheItem V)
  ttl : Duration
  sieveFilter : String → Any V → Except Panic Bool
  cleanupTicker : Ticker
  stopCleanup : Chan

/-- Go function `NewSieveCache`. -/
def NewSieveCache {V : Type} (ttl : Duration)
    (sieveFilter : String → Any V → Except Panic Bool) : Except Panic (SieveCache V) :=
  match NewTicker (Int.tdiv ttl 2) with
  | .error p => .error p
  | .ok ticker =>
    .ok { store := [], ttl := ttl, sieveFilter := sieveFilter,
          cleanupTicker := ticker, stopCleanup := Chan.make }

/-- Go method `SieveCache.Set`, with `now` the reading of `time.Now()`. -/
def SieveCache.Set {V : Type} (c : SieveCache V) (now : Time) (key : String)
    (value : Any V) : Except Panic (SieveCache V) :=
  match c.sieveFilter key value with
  | .error p => .error p
  | .ok true =>
    let cacheItem : CacheItem V :=
      { Value := value, Expiration := Time.Unix (Time.Add now c.ttl) }
    .ok { c with store := c.store.Store key cacheItem }
  | .ok false => .ok c

/-- Go method `SieveCache.Get`, with `now` the reading of `time.Now()`; returns
the pair the Go method returns and the cache afterwards. -/
def SieveCache.Get {V : Type} (c : SieveCache V) (now : Time) (key : String) :
    (Any V × Bool) × SieveCache V :=
  match c.store.Load key with
  | none => ((none, false), c)
  | some cacheItem =>
    if Time.Unix now > cacheItem.Expiration then
      ((none, false), { c with store := c.store.Delete key })
    else
      ((cacheItem.Value, true), c)

/-- Go method `SieveCache.Delete`. -/
def SieveCache.Delete {V : Type} (c : SieveCache V) (key : String) : SieveCache V :=
  { c with store := c.store.Delete key }

/-- Callback of `Range` in `cleanupExpiredItems`: the state is the map being
swept and the number of bindings visited so far; `clock i` is the reading of
`time.Now()` at visit number `i`. -/
def cleanupVisit {V : Type} (clock : Nat → Time) (s : SyncMap (CacheItem V) × Nat)
    (key : String) (cacheItem : CacheItem V) : (SyncMap (CacheItem V) × Nat) × Bool :=
  if Time.Unix (clock s.2) > cacheItem.Expiration then
    ((s.1.Delete key, s.2 + 1), true)
  else
    ((s.1, s.2 + 1), true)

/-- One tick of `cleanupExpiredItems`: the `case <-c.cleanupTicker.C` branch. -/
def SieveCache.cleanupTick {V : Type} (c : SieveCache V) (clock : Nat → Time) :
    SieveCache V :=
  { c with store := (SyncMap.Range (cleanupVisit clock) c.store (c.store, 0)).1 }

/-- Go method `SieveCache.Stop`. -/
def SieveCache.Stop {V : Type} (c : SieveCache V) : Except Panic (SieveCache V) :=
  match c.stopCleanup.close with
  | .error p => .error p
  | .ok ch => .ok { c with stopCleanup := ch, cleanupTicker := c.cleanupTicker.Stop }

/-! ## Sequences of operations -/

/-- One call made on the cache, with the clock readings it observes. -/
inductive Op (V : Type) where
  | set (now : Time) (key : String) (value : Any V)
  | get (now : Time) (key : String)
  | delete (key : String)
  | sweep (clock : Nat → Time)
  | stop

/-- Whether the call is on the key `key`; a sweep visits every key. -/
def Op.touches {V : Type} : Op V → String → Bool
  | .set _ k _, key => decide (k = key)
  | .get _ k, key => decide (k = key)
  | .delete k, key => decide (k = key)
  | .sweep _, _ => true
  | .stop, _ => false

/-- Run one call, dropping what it returns to the caller. -/
def step {V : Type} (c : SieveCache V) : Op V → Except Panic (SieveCache V)
  | .set now key value => c.Set now key value
  | .get now key => .ok (c.Get now key).2
  | .delete key => .ok (c.Delete key)
  | .sweep clock => .ok (c.cleanupTick clock)
  | .stop => c.Stop

/-- Run the calls one after the other; the first panic ends the run. -/
def run {V : Type} (c : SieveCache V) : List (Op V) → Except Panic (SieveCache V)
  | [] => .ok c
  | op :: ops =>
    match step c op with
    | .error p => .error p
    | .ok c1 => run c1 ops

/-! ## The demonstration in `main` -/

/-- Dynamic values that occur in `main`: strings, and integers to stand for a
value of another type. -/
inductive GoValue where
  | string (s : String)
  | int (n : Int)
  deriving DecidableEq, Repr

/-- The closure `filter` of `main`: the value is a string of more than three bytes. -/
def mainFilter (_key : String) (value : Any GoValue) : Except Panic Bool :=
  match value with
  | some (GoValue.string str) => .ok (decide (str.utf8ByteSize > 3))
  | _ => .ok false

/-- The two writes `main` makes, at the clock readings `t1` and `t2`. -/
def mainWrites (t1 t2 : Time) : List (Op GoValue) :=
  [Op.set t1 "key1" (some (GoValue.string "sh")),
   Op.set t2 "key2" (some (GoValue.string "longerString"))]

/-! ## Concrete stores used to instantiate the theorems -/

/-- Filter that admits every write. -/
def acceptAll : String → Any Nat → Except Panic Bool := fun _ _ => .ok true

/-- Filter that admits exactly the non-nil values. -/
def acceptNonNil : String → Any Nat → Except Panic Bool := fun _ value => .ok value.isSome

/-- Empty store with a ttl of one second and a filter that admits every write. -/
def oneSecondCache : SieveCache Nat :=
  { store := [], ttl := Second, sieveFilter := acceptAll,
    cleanupTicker := { period := 500000000, stopped := false }, stopCleanup := Chan.make }

/-- The store `oneSecondCache` after `Set("a", 7)` at the epoch. -/
def oneSecondCacheA : SieveCache Nat :=
  { oneSecondCache with store := [("a", { Value := some 7, Expiration := 1 })] }

/-- Store with a ttl of one second, one entry under `a`, and a filter that rejects nil. -/
def nonNilCache : SieveCache Nat :=
  { store := [("a", { Value := some 7, Expiration := 1 })], ttl := Second,
    sieveFilter := acceptNonNil,
    cleanupTicker := { period := 500000000, stopped := false }, stopCleanup := Chan.make }

/-- The store `oneSecondCacheA` after a concurrent `Set("a", 8)` at five seconds. -/
def oneSecondCacheB : SieveCache Nat :=
  { oneSecondCache with store := [("a", { Value := some 8, Expiration := 6 })] }

/-- Filter that panics on every call. -/
def panicAlways : String → Any Nat → Except Panic Bool :=
  fun _ _ => .error (Panic.inFilter "boom")

/-- Store with one entry under `a` whose filter panics on every call. -/
def panicCache : SieveCache Nat :=
  { store := [("a", { Value := some 7, Expiration := 1 })], ttl := Second,
    sieveFilter := panicAlways,
    cleanupTicker := { period := 500000000, stopped := false }, stopCleanup := Chan.make }

/-- Store with a ttl of ten seconds, two entries, and a filter that rejects nil. -/
def twoEntryCache : SieveCache Nat :=
  { store := [("a", { Value := some 7, Expiration := 1 }),
              ("b", { Value := some 9, Expiration := 30 })],
    ttl := 10 * Second, sieveFilter := acceptNonNil,
    cleanupTicker := { period := 5 * Second, stopped := false }, stopCleanup := Chan.make }

/-- Empty store with a ttl of ten seconds, as `NewSieveCache` builds it. -/
def tenSecondCache : SieveCache Nat :=
  { store := [], ttl := 10 * Second, sieveFilter := acceptNonNil,
    cleanupTicker := { period := Int.tdiv (10 * Second) 2, stopped := false },
    stopCleanup := Chan.make }

/-! ## Well-formed maps -/

/-- A `sync.Map` holds at most one binding per key. -/
def SyncMap.WF {β : Type} (m : SyncMap β) : Prop := (m.map Prod.fst).Nodup

instance SyncMap.decidableWF {β : Type} (m : SyncMap β) : Decidable m.WF :=
  inferInstanceAs (Decidable (m.map Prod.fst).Nodup)

/-! ## `Set` with the store made explicit on every path -/

/-- Go method `SieveCache.Set` as a transformer of the store: the cache when the
call ends, and the panic that ended it, if any.  The filter is called first; the
map is written only after it has returned true. -/
def SieveCache.SetOutcome {V : Type} (c : SieveCache V) (now : Time) (key : String)
    (value : Any V) : SieveCache V × Option Panic :=
  match c.sieveFilter key value with
  | .error p => (c, some p)
  | .ok true =>
    let cacheItem : CacheItem V :=
      { Value := value, Expiration := Time.Unix (Time.Add now c.ttl) }
    ({ c with store := c.store.Store key cacheItem }, none)
  | .ok false => (c, none)

/-! ## The atomic steps of `Get` and of a sweep visit -/

/-- What `Get` holds between its `Load` (with the expiration test) and its
`Delete`: the pair it is about to return, or the key it is about to delete. -/
inductive GetPending (V : Type) where
  | result (r : Any V × Bool)
  | delete (key : String)

/-- First part of `SieveCache.Get`: `c.store.Load(key)` and the expiration test. -/
def SieveCache.GetLoad {V : Type} (c : SieveCache V) (now : Time) (key : String) :
    GetPending V :=
  match c.store.Load key with
  | none => GetPending.result (none, false)
  | some cacheItem =>
    if Time.Unix now > cacheItem.Expiration then GetPending.delete key
    else GetPending.result (cacheItem.Value, true)

/-- Second part of `SieveCache.Get`: the pending `c.store.Delete(key)`, if any,
and the return. -/
def SieveCache.GetFinish {V : Type} (c : SieveCache V) :
    GetPending V → (Any V × Bool) × SieveCache V
  | GetPending.result r => (r, c)
  | GetPending.delete key => ((none, false), { c with store := c.store.Delete key })

/-! ## The standing write of a key -/

/-- Scan of the calls from the most recent one backwards for the write of `key`
that still stands: the most recent `Set(key, v)` that the filter admitted, unless
a `Delete(key)` is met first.  Follows the wording of the specification. -/
def standingWrite {V : Type} (sieveFilter : String → Any V → Except Panic Bool)
    (key : String) : List (Op V) → Option (Time × Any V)
  | [] => none
  | Op.set now k value :: earlier =>
    if k = key then
      match sieveFilter k value with
      | .ok true => some (now, value)
      | _ => standingWrite sieveFilter key earlier
    else standingWrite sieveFilter key earlier
  | Op.delete k :: earlier =>
    if k = key then none else standingWrite sieveFilter key earlier
  | _ :: earlier => standingWrite sieveFilter key earlier

/-- Whether the call is a `Set` on the key `key`. -/
def Op.writes {V : Type} : Op V → String → Bool
  | .set _ k _, key => decide (k = key)
  | _, _ => false

/-- Whether the call is a sweep pass. -/
def Op.isSweep {V : Type} : Op V → Bool
  | .sweep _ => true
  | _ => false

/-! ## Ticks -/

/-- Instant of tick number `n` (counted from 0) of a ticker created at `created`:
the first tick comes one period after creation, the others one period apart. -/
def Ticker.tickTime (t : Ticker) (created : Time) (n : Nat) : Time :=
  created + (n + 1) * t.period

/-- The ticks of the ticker that fall after `s` and no later than `till`. -/
def Ticker.ticksBetween (t : Ticker) (created s till : Time) : List Time :=
  ((List.range (Int.toNat ((till - created) / t.period))).map (t.tickTime created)).filter
    (fun x => decide (s < x))

/-- Clock of a sweep pass that runs at the instant `t`. -/
def clockAt (t : Time) : Nat → Time := fun _ => t

/-- Whether the entry is past its expiration at the instant `t`, as both `Get`
and the sweep test it: `time.Now().Unix() > cacheItem.Expiration`. -/
def CacheItem.expiredAt {V : Type} (cacheItem : CacheItem V) (t : Time) : Bool :=
  decide (Time.Unix t > cacheItem.Expiration)

/-! ## Facts about time -/

theorem Time.Unix_mono {a b : Time} (h : a ≤ b) : Time.Unix a ≤ Time.Unix b := by
  unfold Time.Unix
  exact Int.ediv_le_ediv (by norm_num) h

theorem Time.Unix_add_seconds (t : Time) (n : Int) :
    Time.Unix (t + n * Second) = Time.Unix t + n := by
  unfold Time.Unix Second
  exact Int.add_mul_ediv_right t n (by norm_num)

theorem Time.Unix_lt_imp_lt {a b : Time} (h : Time.Unix a < Time.Unix b) : a < b := by
  by_contra hcon
  exact absurd (Time.Unix_mono (not_lt.mp hcon)) (not_le.mpr h)

/-! ## Facts about the map -/

theorem SyncMap.Load_Store_same {β : Type} (m : SyncMap β) (key : String) (value : β) :
    (m.Store key value).Load key = some value := by
  induction m with
  | nil => simp [SyncMap.Store, SyncMap.Load]
  | cons p m ih =>
    obtain ⟨k, v⟩ := p
    by_cases h : k = key
    · simp [SyncMap.Store, SyncMap.Load, h]
    · simp [SyncMap.Store, SyncMap.Load, h, ih]

theorem SyncMap.Load_Store_other {β : Type} (m : SyncMap β) (key other : String)
    (value : β) (hne : key ≠ other) :
    (m.Store key value).Load other = m.Load other := by
  induction m with
  | nil => simp [SyncMap.Store, SyncMap.Load, hne]
  | cons p m ih =>
    obtain ⟨k, v⟩ := p
    by_cases h : k = key
    · subst h
      simp [SyncMap.Store, SyncMap.Load, hne]
    · by_cases h2 : k = other
      · subst h2
        simp [SyncMap.Store, SyncMap.Load, h]
      · simp [SyncMap.Store, SyncMap.Load, h, h2, ih]

theorem SyncMap.Load_Delete_same {β : Type} (m : SyncMap β) (key : String) :
    (m.Delete key).Load key = none := by
  induction m with
  | nil => simp [SyncMap.Delete, SyncMap.Load]
  | cons p m ih =>
    obtain ⟨k, v⟩ := p
    by_cases h : k = key
    · simp [SyncMap.Delete, h, ih]
    · simp [SyncMap.Delete, SyncMap.Load, h, ih]

theorem SyncMap.Load_Delete_other {β : Type} (m : SyncMap β) (key other : String)
    (hne : key ≠ other) :
    (m.Delete key).Load other = m.Load other := by
  induction m with
  | nil => simp [SyncMap.Delete, SyncMap.Load]
  | cons p m ih =>
    obtain ⟨k, v⟩ := p
    by_cases h : k = key
    · subst h
      simp [SyncMap.Delete, SyncMap.Load, hne, ih]
    · by_cases h2 : k = other
      · subst h2
        simp [SyncMap.Delete, SyncMap.Load, h]
      · simp [SyncMap.Delete, SyncMap.Load, h, h2, ih]

theorem SyncMap.Delete_of_Load_none {β : Type} (m : SyncMap β) (key : String)
    (h : m.Load key = none) : m.Delete key = m := by
  induction m with
  | nil => simp [SyncMap.Delete]
  | cons p m ih =>
    obtain ⟨k, v⟩ := p
    by_cases hk : k = key
    · simp [SyncMap.Load, hk] at h
    · simp only [SyncMap.Load, hk, if_false] at h
      simp [SyncMap.Delete, hk, ih h]

theorem SyncMap.Delete_Delete {β : Type} (m : SyncMap β) (key : String) :
    (m.Delete key).Delete key = m.Delete key :=
  SyncMap.Delete_of_Load_none _ _ (SyncMap.Load_Delete_same m key)

theorem SyncMap.Store_Store {β : Type} (m : SyncMap β) (key : String) (v1 v2 : β) :
    (m.Store key v1).Store key v2 = m.Store key v2 := by
  induction m with
  | nil => simp [SyncMap.Store]
  | cons p m ih =>
    obtain ⟨k, v⟩ := p
    by_cases h : k = key
    · simp [SyncMap.Store, h]
    · simp [SyncMap.Store, h, ih]

/-! ## Facts about single calls -/

theorem SieveCache.Set_admitted {V : Type} (c : SieveCache V) (now : Time) (key : String)
    (value : Any V) (h : c.sieveFilter key value = .ok true) :
    c.Set now key value =
      .ok { c with store := c.store.Store key
                    ⟨value, Time.Unix (Time.Add now c.ttl)⟩ } := by
  simp [SieveCache.Set, h]

theorem SieveCache.Set_rejected {V : Type} (c : SieveCache V) (now : Time) (key : String)
    (value : Any V) (h : c.sieveFilter key value = .ok false) :
    c.Set now key value = .ok c := by
  simp [SieveCache.Set, h]

theorem SieveCache.Get_absent {V : Type} (c : SieveCache V) (now : Time) (key : String)
    (h : c.store.Load key = none) : c.Get now key = ((none, false), c) := by
  simp [SieveCache.Get, h]

theorem SieveCache.Get_expired {V : Type} (c : SieveCache V) (now : Time) (key : String)
    (e : CacheItem V) (h : c.store.Load key = some e) (hexp : e.Expiration < Time.Unix now) :
    c.Get now key = ((none, false), { c with store := c.store.Delete key }) := by
  simp [SieveCache.Get, h, hexp]

theorem SieveCache.Get_live {V : Type} (c : SieveCache V) (now : Time) (key : String)
    (e : CacheItem V) (h : c.store.Load key = some e) (hlive : Time.Unix now ≤ e.Expiration) :
    c.Get now key = ((e.Value, true), c) := by
  simp [SieveCache.Get, h, not_lt.mpr hlive]

/-- A call on another key leaves the binding of `key`, the ttl and the filter as
they were. -/
theorem step_frame {V : Type} (c c1 : SieveCache V) (op : Op V) (key : String)
    (htouch : op.touches key = false) (hstep : step c op = .ok c1) :
    c1.store.Load key = c.store.Load key ∧ c1.ttl = c.ttl ∧
      c1.sieveFilter = c.sieveFilter := by
  cases op with
  | set now k value =>
    have hne : k ≠ key := by simpa [Op.touches] using htouch
    simp only [step, SieveCache.Set] at hstep
    split at hstep
    · cases hstep
    · cases hstep
      exact ⟨SyncMap.Load_Store_other _ _ _ _ hne, rfl, rfl⟩
    · cases hstep
      exact ⟨rfl, rfl, rfl⟩
  | get now k =>
    have hne : k ≠ key := by simpa [Op.touches] using htouch
    simp only [step, SieveCache.Get] at hstep
    split at hstep
    · cases hstep
      exact ⟨rfl, rfl, rfl⟩
    · split at hstep
      · cases hstep
        exact ⟨SyncMap.Load_Delete_other _ _ _ hne, rfl, rfl⟩
      · cases hstep
        exact ⟨rfl, rfl, rfl⟩
  | delete k =>
    have hne : k ≠ key := by simpa [Op.touches] using htouch
    simp only [step, SieveCache.Delete] at hstep
    cases hstep
    exact ⟨SyncMap.Load_Delete_other _ _ _ hne, rfl, rfl⟩
  | sweep clock => simp [Op.touches] at htouch
  | stop =>
    simp only [step, SieveCache.Stop] at hstep
    split at hstep
    · cases hstep
    · cases hstep
      exact ⟨rfl, rfl, rfl⟩

/-- Calls on other keys leave the binding of `key`, the ttl and the filter as
they were. -/
theorem run_frame {V : Type} (ops : List (Op V)) (c c1 : SieveCache V) (key : String)
    (htouch : ∀ op ∈ ops, op.touches key = false) (hrun : run c ops = .ok c1) :
    c1.store.Load key = c.store.Load key ∧ c1.ttl = c.ttl ∧
      c1.sieveFilter = c.sieveFilter := by
  induction ops generalizing c with
  | nil =>
    simp only [run] at hrun
    cases hrun
    exact ⟨rfl, rfl, rfl⟩
  | cons op ops ih =>
    simp only [run] at hrun
    split at hrun
    · cases hrun
    · rename_i c0 hc0
      obtain ⟨h1, h2, h3⟩ := step_frame c c0 op key (htouch op (List.mem_cons_self _ _)) hc0
      obtain ⟨g1, g2, g3⟩ := ih c0 (fun o ho => htouch o (List.mem_cons_of_mem _ ho)) hrun
      exact ⟨g1.trans h1, g2.trans h2, g3.trans h3⟩

/-! ## Facts about construction, the sweep and `Stop` -/

theorem halve_pos_of_two_le (a : Int) (h : 2 ≤ a) : ¬ Int.tdiv a 2 ≤ 0 := by
  rw [Int.tdiv_eq_ediv (by omega) (by norm_num)]
  omega

theorem halve_nonpos_of_le_one (a : Int) (h : a ≤ 1) : Int.tdiv a 2 ≤ 0 := by
  rcases le_or_lt 0 a with h0 | h0
  · rw [Int.tdiv_eq_ediv h0 (by norm_num)]
    omega
  · have hneg : 0 ≤ Int.tdiv (-a) 2 := Int.tdiv_nonneg (by omega) (by norm_num)
    rw [Int.neg_tdiv] at hneg
    omega

theorem NewSieveCache_of_two_le {V : Type} (ttl : Duration)
    (sieveFilter : String → Any V → Except Panic Bool) (h : 2 ≤ ttl) :
    NewSieveCache ttl sieveFilter =
      .ok { store := [], ttl := ttl, sieveFilter := sieveFilter,
            cleanupTicker := { period := Int.tdiv ttl 2, stopped := false },
            stopCleanup := Chan.make } := by
  simp [NewSieveCache, NewTicker, halve_pos_of_two_le ttl h]

theorem NewSieveCache_of_le_one {V : Type} (ttl : Duration)
    (sieveFilter : String → Any V → Except Panic Bool) (h : ttl ≤ 1) :
    NewSieveCache ttl sieveFilter = .error Panic.nonPositiveInterval := by
  simp [NewSieveCache, NewTicker, halve_nonpos_of_le_one ttl h]

/-- A sweep pass only deletes: every key ends up without an entry or with the
entry it had. -/
theorem Range_cleanupVisit_shrinks {V : Type} (clock : Nat → Time)
    (entries m : SyncMap (CacheItem V)) (i : Nat) (key : String) :
    (SyncMap.Range (cleanupVisit clock) entries (m, i)).1.Load key = none ∨
      (SyncMap.Range (cleanupVisit clock) entries (m, i)).1.Load key = m.Load key := by
  induction entries generalizing m i with
  | nil => exact Or.inr rfl
  | cons p entries ih =>
    obtain ⟨k, item⟩ := p
    by_cases hexp : Time.Unix (clock i) > item.Expiration
    · simp only [SyncMap.Range, cleanupVisit, hexp, if_true]
      rcases ih (m.Delete k) (i + 1) with h | h
      · exact Or.inl h
      · by_cases hk : k = key
        · subst hk
          rw [SyncMap.Load_Delete_same] at h
          exact Or.inl h
        · rw [SyncMap.Load_Delete_other _ _ _ hk] at h
          exact Or.inr h
    · simp only [SyncMap.Range, cleanupVisit, hexp, if_false]
      exact ih m (i + 1)

/-- Any number of sweep passes run to completion and only delete. -/
theorem run_sweeps {V : Type} (sweeps : List (Nat → Time)) (c : SieveCache V) :
    ∃ c1 : SieveCache V, run c (sweeps.map Op.sweep) = .ok c1 ∧
      ∀ key : String, c1.store.Load key = none ∨ c1.store.Load key = c.store.Load key := by
  induction sweeps generalizing c with
  | nil => exact ⟨c, rfl, fun _ => Or.inr rfl⟩
  | cons clock sweeps ih =>
    obtain ⟨c1, hrun, hshrink⟩ := ih (c.cleanupTick clock)
    refine ⟨c1, by simpa [run, step] using hrun, fun key => ?_⟩
    rcases hshrink key with h | h
    · exact Or.inl h
    · rcases Range_cleanupVisit_shrinks clock c.store c.store 0 key with h2 | h2
      · exact Or.inl (h.trans h2)
      · exact Or.inr (h.trans h2)

/-! ## Claims -/

/-- C1: when the filter admits `(k, v)`, `Set(k, v)` runs at `s`, only calls on
other keys follow, and `Get(k)` runs at `g` with `s ≤ g < s + ttl`, that `Get`
returns `(v, true)` and changes nothing; the same holds for a `Get` at `g = s`. -/
theorem C1_get_within_ttl_returns_value {V : Type} (c c1 : SieveCache V) (k : String)
    (v : Any V) (s g : Time) (ops : List (Op V))
    (hadm : c.sieveFilter k v = .ok true)
    (hle : s ≤ g) (hlt : g < Time.Add s c.ttl)
    (hother : ∀ op ∈ ops, op.touches k = false)
    (hrun : run c (Op.set s k v :: ops) = .ok c1) :
    c1.Get g k = ((v, true), c1) ∧ c1.Get s k = ((v, true), c1) := by
  simp only [run, step, SieveCache.Set_admitted c s k v hadm] at hrun
  obtain ⟨hload, -, -⟩ := run_frame ops _ c1 k hother hrun
  simp only [SyncMap.Load_Store_same] at hload
  have hg : Time.Unix g ≤ Time.Unix (Time.Add s c.ttl) := Time.Unix_mono (le_of_lt hlt)
  have hs : Time.Unix s ≤ Time.Unix (Time.Add s c.ttl) :=
    Time.Unix_mono (le_of_lt (lt_of_le_of_lt hle hlt))
  exact ⟨SieveCache.Get_live c1 g k _ hload hg, SieveCache.Get_live c1 s k _ hload hs⟩

/-- C1 at a ttl of one second: `Set` at the epoch, `Get` one nanosecond before `s + ttl`. -/
theorem C1_get_within_ttl_returns_value_witness :
    oneSecondCacheA.Get 999999999 "a" = ((some 7, true), oneSecondCacheA) ∧
      oneSecondCacheA.Get 0 "a" = ((some 7, true), oneSecondCacheA) :=
  C1_get_within_ttl_returns_value oneSecondCache oneSecondCacheA "a" (some 7) 0 999999999 []
    rfl (by decide) (by decide) (by simp) rfl

/-- C2, as stated, fails: with a ttl of one second, a `Set` at the epoch and a
`Get` one nanosecond after `now + ttl`, the `Get` still returns the value. -/
theorem C2_counterexample :
    oneSecondCache.sieveFilter "a" (some 7) = .ok true ∧
      0 < oneSecondCache.ttl ∧
      Time.Add 0 oneSecondCache.ttl < 1000000001 ∧
      run oneSecondCache [Op.set 0 "a" (some 7)] = .ok oneSecondCacheA ∧
      oneSecondCacheA.Get 1000000001 "a" = ((some 7, true), oneSecondCacheA) ∧
      (oneSecondCacheA.Get 1000000001 "a").1 ≠ (none, false) := by
  refine ⟨rfl, by decide, by decide, rfl, rfl, ?_⟩
  simp [SieveCache.Get, oneSecondCacheA, SyncMap.Load, Time.Unix]

/-- C3: when the filter rejects `(k, v)`, `Set(k, v)` returns the store exactly as
it was, so every binding (of `k` and of every other key) is unchanged, and a
`Get(k)` afterwards returns what it returns without the `Set`: not-found when `k`
has no entry, the stored value when `k` has an entry that is not expired. -/
theorem C3_rejected_set_changes_nothing {V : Type} (c : SieveCache V) (now : Time)
    (k : String) (v : Any V) (hrej : c.sieveFilter k v = .ok false) :
    c.Set now k v = .ok c ∧
      ∀ c1 : SieveCache V, run c [Op.set now k v] = .ok c1 →
        c1.store = c.store ∧
        (∀ key : String, c1.store.Load key = c.store.Load key) ∧
        ∀ g : Time,
          c1.Get g k = c.Get g k ∧
          (c.store.Load k = none → (c1.Get g k).1 = (none, false)) ∧
          (∀ e : CacheItem V, c.store.Load k = some e → Time.Unix g ≤ e.Expiration →
            (c1.Get g k).1 = (e.Value, true)) := by
  have hset := SieveCache.Set_rejected c now k v hrej
  refine ⟨hset, fun c1 hrun => ?_⟩
  simp only [run, step, hset] at hrun
  cases hrun
  refine ⟨rfl, fun _ => rfl, fun g => ⟨rfl, fun h => ?_, fun e h hl => ?_⟩⟩
  · rw [SieveCache.Get_absent c g k h]
  · rw [SieveCache.Get_live c g k e h hl]

/-- C3 on a store whose filter rejects nil: `Set` of nil over an existing entry. -/
theorem C3_rejected_set_changes_nothing_witness :
    nonNilCache.Set 5 "a" none = .ok nonNilCache ∧
      ∀ c1 : SieveCache Nat, run nonNilCache [Op.set 5 "a" none] = .ok c1 →
        c1.store = nonNilCache.store ∧
        (∀ key : String, c1.store.Load key = nonNilCache.store.Load key) ∧
        ∀ g : Time,
          c1.Get g "a" = nonNilCache.Get g "a" ∧
          (nonNilCache.store.Load "a" = none → (c1.Get g "a").1 = (none, false)) ∧
          (∀ e : CacheItem Nat, nonNilCache.store.Load "a" = some e →
            Time.Unix g ≤ e.Expiration → (c1.Get g "a").1 = (e.Value, true)) :=
  C3_rejected_set_changes_nothing nonNilCache 5 "a" none rfl

/-- C6: `Delete(k)` leaves `k` without an entry and every other key's entry as it
was; when `k` had no entry the store is unchanged; a `Get(k)` right after it
returns `(nil, false)` at any time; and deleting twice is deleting once. -/
theorem C6_delete_removes_only_key {V : Type} (c : SieveCache V) (k : String) :
    (c.Delete k).store.Load k = none ∧
      (∀ other : String, other ≠ k → (c.Delete k).store.Load other = c.store.Load other) ∧
      (c.store.Load k = none → c.Delete k = c) ∧
      (∀ g : Time, (c.Delete k).Get g k = ((none, false), c.Delete k)) ∧
      (c.Delete k).Delete k = c.Delete k ∧
      run c [Op.delete k, Op.delete k] = run c [Op.delete k] := by
  have hnone : (c.Delete k).store.Load k = none := SyncMap.Load_Delete_same _ _
  have htwice : (c.Delete k).Delete k = c.Delete k := by
    simp [SieveCache.Delete, SyncMap.Delete_Delete]
  refine ⟨hnone, fun other hne => SyncMap.Load_Delete_other _ _ _ (Ne.symm hne),
    fun h => ?_, fun g => SieveCache.Get_absent _ g k hnone, htwice, ?_⟩
  · simp [SieveCache.Delete, SyncMap.Delete_of_Load_none _ _ h]
  · simp [run, step, htwice]

/-- C7: when the filter admits both `(k, v1)` and `(k, v2)`, `Set(k, v1)` at `s1`
followed by `Set(k, v2)` at `s2` leaves exactly the store that `Set(k, v2)` at `s2`
alone leaves: `k` holds `v2` with expiration `Unix(s2 + ttl)` and every other key
is as it was before both writes. -/
theorem C7_later_set_overwrites {V : Type} (c : SieveCache V) (k : String)
    (v1 v2 : Any V) (s1 s2 : Time)
    (h1 : c.sieveFilter k v1 = .ok true) (h2 : c.sieveFilter k v2 = .ok true) :
    ∃ c2 : SieveCache V,
      c.Set s2 k v2 = .ok c2 ∧
      run c [Op.set s1 k v1, Op.set s2 k v2] = .ok c2 ∧
      c2.store.Load k = some { Value := v2, Expiration := Time.Unix (Time.Add s2 c.ttl) } ∧
      (∀ other : String, other ≠ k → c2.store.Load other = c.store.Load other) ∧
      c2.ttl = c.ttl := by
  refine ⟨_, SieveCache.Set_admitted c s2 k v2 h2, ?_, SyncMap.Load_Store_same _ _ _,
    fun other hne => SyncMap.Load_Store_other _ _ _ _ (Ne.symm hne), rfl⟩
  simp only [run, step, SieveCache.Set_admitted c s1 k v1 h1]
  rw [SieveCache.Set_admitted _ s2 k v2 (by simpa using h2)]
  simp [SyncMap.Store_Store]

/-- C7 at a ttl of one second: two admitted writes of `a`, three seconds apart. -/
theorem C7_later_set_overwrites_witness :
    ∃ c2 : SieveCache Nat,
      oneSecondCache.Set 3000000000 "a" (some 8) = .ok c2 ∧
      run oneSecondCache [Op.set 0 "a" (some 7), Op.set 3000000000 "a" (some 8)] = .ok c2 ∧
      c2.store.Load "a" =
        some { Value := some 8,
               Expiration := Time.Unix (Time.Add 3000000000 oneSecondCache.ttl) } ∧
      (∀ other : String, other ≠ "a" → c2.store.Load other = oneSecondCache.store.Load other) ∧
      c2.ttl = oneSecondCache.ttl :=
  C7_later_set_overwrites oneSecondCache "a" (some 7) (some 8) 0 3000000000 rfl rfl

/-- C8: the claim fails on the code at a ttl of one nanosecond: whatever the
filter, `NewSieveCache(1, filter)` panics in `time.NewTicker`, because the period
`ttl / 2` is zero. -/
theorem C8_new_cache_one_nanosecond_panics (V : Type)
    (sieveFilter : String → Any V → Except Panic Bool) :
    NewSieveCache 1 sieveFilter = .error Panic.nonPositiveInterval ∧
      NewTicker (Int.tdiv 1 2) = .error Panic.nonPositiveInterval :=
  ⟨rfl, rfl⟩

/-- C9: the claim fails on the code: on every store, calling `Stop` twice in a
row ends in the panic of closing a closed channel. -/
theorem C9_second_stop_panics (V : Type) (c : SieveCache V) :
    run c [Op.stop, Op.stop] = .error Panic.closeOfClosedChannel := by
  by_cases h : c.stopCleanup.closed = true
  · simp [run, step, SieveCache.Stop, Chan.close, h]
  · simp [run, step, SieveCache.Stop, Chan.close, h]

/-- C10: the scenario of `main`, for all clock readings.  Construction with a ttl
of ten seconds succeeds; `Set("key1", "sh")` is rejected, so `Get("key1")` is
not-found (right after it on the fresh store, and after the calls on `key2`);
`Set("key2", "longerString")` at `t2` followed by `Get("key2")` at `t3 < t2 + 10s`
returns `("longerString", true)`; and after any number of sweep passes (none
included), `Get("key2")` at any `t5 ≥ t2 + 11s` returns `(nil, false)`. -/
theorem C10_main_scenario (t1 t2 t3 t4 t5 : Time) (sweeps : List (Nat → Time))
    (hnear : t3 < Time.Add t2 (10 * Second))
    (hlate : Time.Add t2 (11 * Second) ≤ t5) :
    ∃ c0 c2 c5 : SieveCache GoValue,
      NewSieveCache (10 * Second) mainFilter = .ok c0 ∧
      run c0 [Op.set t1 "key1" (some (GoValue.string "sh"))] = .ok c0 ∧
      (c0.Get t1 "key1").1 = (none, false) ∧
      run c0 (mainWrites t1 t2) = .ok c2 ∧
      (c2.Get t3 "key2").1 = (some (GoValue.string "longerString"), true) ∧
      ((c2.Get t3 "key2").2.Get t4 "key1").1 = (none, false) ∧
      run ((c2.Get t3 "key2").2.Get t4 "key1").2 (sweeps.map Op.sweep) = .ok c5 ∧
      (c5.Get t5 "key2").1 = (none, false) := by
  have hsh : mainFilter "key1" (some (GoValue.string "sh")) = .ok false := by
    simp only [mainFilter]
    exact congrArg Except.ok (by decide)
  have hlong : mainFilter "key2" (some (GoValue.string "longerString")) = .ok true := by
    simp only [mainFilter]
    exact congrArg Except.ok (by decide)
  have hne : ¬ ("key2" : String) = "key1" := by decide
  -- the store after the two writes
  let item : CacheItem GoValue :=
    { Value := some (GoValue.string "longerString"),
      Expiration := Time.Unix (Time.Add t2 (10 * Second)) }
  let c0 : SieveCache GoValue :=
    { store := [], ttl := 10 * Second, sieveFilter := mainFilter,
      cleanupTicker := { period := Int.tdiv (10 * Second) 2, stopped := false },
      stopCleanup := Chan.make }
  let c2 : SieveCache GoValue := { c0 with store := [("key2", item)] }
  have hnew : NewSieveCache (10 * Second) mainFilter = .ok c0 :=
    NewSieveCache_of_two_le _ _ (by decide)
  have hset1 : c0.Set t1 "key1" (some (GoValue.string "sh")) = .ok c0 :=
    SieveCache.Set_rejected c0 t1 _ _ hsh
  have hset2 : c0.Set t2 "key2" (some (GoValue.string "longerString")) = .ok c2 :=
    SieveCache.Set_admitted c0 t2 _ _ hlong
  have hload2 : c2.store.Load "key2" = some item := by
    simp [c2, SyncMap.Load]
  have hload1 : c2.store.Load "key1" = none := by
    simp [c2, SyncMap.Load, hne]
  have hget2 : c2.Get t3 "key2" = ((item.Value, true), c2) :=
    SieveCache.Get_live c2 t3 _ item hload2 (Time.Unix_mono (le_of_lt hnear))
  have hget1 : c2.Get t4 "key1" = ((none, false), c2) :=
    SieveCache.Get_absent c2 t4 _ hload1
  obtain ⟨c5, hrun5, hshrink⟩ := run_sweeps sweeps c2
  have hexp : item.Expiration < Time.Unix t5 := by
    have h1 : Time.Unix (Time.Add t2 (11 * Second)) ≤ Time.Unix t5 := Time.Unix_mono hlate
    have h2 : Time.Unix (Time.Add t2 (11 * Second)) = Time.Unix t2 + 11 :=
      Time.Unix_add_seconds t2 11
    have h3 : Time.Unix (Time.Add t2 (10 * Second)) = Time.Unix t2 + 10 :=
      Time.Unix_add_seconds t2 10
    show Time.Unix (Time.Add t2 (10 * Second)) < Time.Unix t5
    rw [h3]
    rw [h2] at h1
    exact lt_of_lt_of_le (by linarith) h1
  refine ⟨c0, c2, c5, hnew, ?_, ?_, ?_, ?_, ?_, ?_, ?_⟩
  · simp only [run, step, hset1]
  · exact congrArg Prod.fst (SieveCache.Get_absent c0 t1 "key1" rfl)
  · simp only [mainWrites, run, step, hset1, hset2]
  · rw [hget2]
  · rw [hget2, hget1]
  · rw [hget2, hget1]
    exact hrun5
  · rcases hshrink "key2" with h | h
    · rw [SieveCache.Get_absent c5 t5 _ h]
    · rw [SieveCache.Get_expired c5 t5 _ item (h.trans hload2) hexp]

/-- C10 with the writes half a second into a Unix second and two sweep passes during the wait. -/
theorem C10_main_scenario_witness :
    ∃ c0 c2 c5 : SieveCache GoValue,
      NewSieveCache (10 * Second) mainFilter = .ok c0 ∧
      run c0 [Op.set 1500000000 "key1" (some (GoValue.string "sh"))] = .ok c0 ∧
      (c0.Get 1500000000 "key1").1 = (none, false) ∧
      run c0 (mainWrites 1500000000 1500000100) = .ok c2 ∧
      (c2.Get 1500000200 "key2").1 = (some (GoValue.string "longerString"), true) ∧
      ((c2.Get 1500000200 "key2").2.Get 1500000300 "key1").1 = (none, false) ∧
      run ((c2.Get 1500000200 "key2").2.Get 1500000300 "key1").2
        ([fun _ => 6500000000, fun _ => 11500000000].map Op.sweep) = .ok c5 ∧
      (c5.Get 12500000400 "key2").1 = (none, false) :=
  C10_main_scenario 1500000000 1500000100 1500000200 1500000300 12500000400
    [fun _ => 6500000000, fun _ => 11500000000] (by decide) (by decide)

/-! ## Facts about well-formed maps and the sweep -/

theorem SyncMap.Delete_eq_filter {β : Type} (m : SyncMap β) (key : String) :
    m.Delete key = m.filter (fun p => decide (p.1 ≠ key)) := by
  induction m with
  | nil => rfl
  | cons p m ih =>
    obtain ⟨k, v⟩ := p
    by_cases h : k = key
    · simp [SyncMap.Delete, h, ih]
    · simp [SyncMap.Delete, h, ih]

theorem SyncMap.Load_of_not_mem_keys {β : Type} (m : SyncMap β) (key : String)
    (h : key ∉ m.map Prod.fst) : m.Load key = none := by
  induction m with
  | nil => rfl
  | cons p m ih =>
    obtain ⟨k, v⟩ := p
    simp only [List.map_cons, List.mem_cons, not_or] at h
    simp [SyncMap.Load, Ne.symm h.1, ih h.2]

theorem SyncMap.mem_of_Load {β : Type} (m : SyncMap β) (key : String) (v : β)
    (h : m.Load key = some v) : (key, v) ∈ m := by
  induction m with
  | nil => simp [SyncMap.Load] at h
  | cons p m ih =>
    obtain ⟨k, w⟩ := p
    by_cases hk : k = key
    · subst hk
      simp only [SyncMap.Load, if_true, Option.some.injEq] at h
      subst h
      exact List.mem_cons_self _ _
    · simp only [SyncMap.Load, hk, if_false] at h
      exact List.mem_cons_of_mem _ (ih h)

theorem SyncMap.WF_nil {β : Type} : SyncMap.WF ([] : SyncMap β) := List.nodup_nil

theorem SyncMap.WF_filter {β : Type} (m : SyncMap β) (P : String × β → Bool)
    (h : m.WF) : SyncMap.WF (m.filter P) :=
  List.Nodup.sublist (List.Sublist.map Prod.fst (List.filter_sublist m)) h

theorem SyncMap.WF_Delete {β : Type} (m : SyncMap β) (key : String) (h : m.WF) :
    SyncMap.WF (m.Delete key) := by
  rw [SyncMap.Delete_eq_filter]
  exact SyncMap.WF_filter m _ h

theorem SyncMap.keys_Store {β : Type} (m : SyncMap β) (key : String) (value : β) :
    (m.Store key value).map Prod.fst =
      if key ∈ m.map Prod.fst then m.map Prod.fst else m.map Prod.fst ++ [key] := by
  induction m with
  | nil => simp [SyncMap.Store]
  | cons p m ih =>
    obtain ⟨k, v⟩ := p
    by_cases h : k = key
    · simp [SyncMap.Store, h]
    · have hne : ¬ key = k := fun e => h e.symm
      by_cases hm : key ∈ m.map Prod.fst
      · simp only [SyncMap.Store, h, if_false, List.map_cons, ih, hm, if_true,
          List.mem_cons, or_true]
      · simp only [SyncMap.Store, h, if_false, List.map_cons, ih, hm, List.mem_cons, hne,
          or_self, List.cons_append]

theorem SyncMap.WF_Store {β : Type} (m : SyncMap β) (key : String) (value : β)
    (h : m.WF) : SyncMap.WF (m.Store key value) := by
  unfold SyncMap.WF at *
  rw [SyncMap.keys_Store]
  by_cases hm : key ∈ m.map Prod.fst
  · simpa [hm] using h
  · simp only [hm, if_false]
    exact List.Nodup.append h (List.nodup_singleton key)
      (by
        intro a ha hb
        rw [List.mem_singleton] at hb
        exact hm (hb ▸ ha))

theorem SyncMap.Load_filter {β : Type} (m : SyncMap β) (P : String × β → Bool)
    (key : String) (h : m.WF) :
    SyncMap.Load (m.filter P) key = (m.Load key).filter (fun v => P (key, v)) := by
  induction m with
  | nil => rfl
  | cons p m ih =>
    obtain ⟨k, v⟩ := p
    have hm : SyncMap.WF m := (List.nodup_cons.mp h).2
    have hk : k ∉ m.map Prod.fst := (List.nodup_cons.mp h).1
    by_cases hkey : k = key
    · subst hkey
      by_cases hp : P (k, v) = true
      · simp [List.filter, hp, SyncMap.Load, Option.filter]
      · have hnone : SyncMap.Load (m.filter P) k = none := by
          apply SyncMap.Load_of_not_mem_keys
          intro hmem
          exact hk ((List.Sublist.map Prod.fst (List.filter_sublist m)).subset hmem)
        simp [List.filter, hp, SyncMap.Load, hnone, Option.filter]
    · by_cases hp : P (k, v) = true
      · simp [List.filter, hp, SyncMap.Load, hkey, ih hm]
      · simp [List.filter, hp, SyncMap.Load, hkey, ih hm]

/-- A sweep pass whose every visit reads the clock at `t` removes from the map
the keys that have an expired binding among the visited bindings. -/
theorem Range_cleanupVisit_clockAt {V : Type} (t : Time)
    (entries m : SyncMap (CacheItem V)) (i : Nat) :
    (SyncMap.Range (cleanupVisit (clockAt t)) entries (m, i)).1 =
      m.filter (fun p => !(entries.any (fun q => decide (q.1 = p.1) && q.2.expiredAt t))) := by
  induction entries generalizing m i with
  | nil => simp [SyncMap.Range]
  | cons q entries ih =>
    obtain ⟨k, item⟩ := q
    by_cases hexp : Time.Unix t > item.Expiration
    · simp only [SyncMap.Range, cleanupVisit, clockAt, hexp, if_true]
      have := ih (m.Delete k) (i + 1)
      simp only [clockAt] at this
      rw [this, SyncMap.Delete_eq_filter, List.filter_filter]
      apply List.filter_congr
      intro p _
      by_cases hk : k = p.1
      · simp [hk, CacheItem.expiredAt, hexp]
      · have hk2 : ¬ p.1 = k := fun e => hk e.symm
        simp [hk, hk2, CacheItem.expiredAt]
    · simp only [SyncMap.Range, cleanupVisit, clockAt, hexp, if_false]
      have := ih m (i + 1)
      simp only [clockAt] at this
      rw [this]
      apply List.filter_congr
      intro p _
      simp [CacheItem.expiredAt, hexp]

/-- On a well-formed map, a sweep pass at `t` keeps exactly the bindings that are
not expired at `t`. -/
theorem cleanupTick_clockAt_store {V : Type} (c : SieveCache V) (t : Time)
    (h : c.store.WF) :
    (c.cleanupTick (clockAt t)).store = c.store.filter (fun p => !p.2.expiredAt t) := by
  simp only [SieveCache.cleanupTick]
  rw [Range_cleanupVisit_clockAt]
  apply List.filter_congr
  intro p hp
  by_cases hexp : p.2.expiredAt t = true
  · have hany : c.store.any (fun q => decide (q.1 = p.1) && q.2.expiredAt t) = true :=
      List.any_eq_true.mpr ⟨p, hp, by simp [hexp]⟩
    simp [hany, hexp]
  · have hany : ¬ c.store.any (fun q => decide (q.1 = p.1) && q.2.expiredAt t) = true := by
      intro hc
      obtain ⟨q, hq, hqp⟩ := List.any_eq_true.mp hc
      simp only [Bool.and_eq_true, decide_eq_true_eq] at hqp
      have : q = p := List.inj_on_of_nodup_map h hq hp hqp.1
      exact hexp (this ▸ hqp.2)
    simp only [Bool.not_eq_true] at hany hexp
    simp [hany, hexp]

/-! ## Facts about runs -/

theorem SyncMap.Delete_sublist {β : Type} (m : SyncMap β) (key : String) :
    List.Sublist (m.Delete key) m := by
  rw [SyncMap.Delete_eq_filter]
  exact List.filter_sublist m

theorem SyncMap.mem_Store {β : Type} (m : SyncMap β) (key : String) (value : β)
    (p : String × β) (h : p ∈ m.Store key value) : p = (key, value) ∨ p ∈ m := by
  induction m with
  | nil =>
    simp only [SyncMap.Store, List.mem_singleton] at h
    exact Or.inl h
  | cons q m ih =>
    obtain ⟨k, v⟩ := q
    by_cases hk : k = key
    · simp only [SyncMap.Store, hk, if_true, List.mem_cons] at h
      rcases h with h | h
      · exact Or.inl h
      · exact Or.inr (List.mem_cons_of_mem _ h)
    · simp only [SyncMap.Store, hk, if_false, List.mem_cons] at h
      rcases h with h | h
      · exact Or.inr (h ▸ List.mem_cons_self _ _)
      · rcases ih h with h2 | h2
        · exact Or.inl h2
        · exact Or.inr (List.mem_cons_of_mem _ h2)

/-- A sweep pass, whatever its clock readings, leaves a sublist of the map. -/
theorem Range_cleanupVisit_sublist {V : Type} (clock : Nat → Time)
    (entries m : SyncMap (CacheItem V)) (i : Nat) :
    List.Sublist (SyncMap.Range (cleanupVisit clock) entries (m, i)).1 m := by
  induction entries generalizing m i with
  | nil => exact List.Sublist.refl _
  | cons p entries ih =>
    obtain ⟨k, item⟩ := p
    by_cases hexp : Time.Unix (clock i) > item.Expiration
    · simp only [SyncMap.Range, cleanupVisit, hexp, if_true]
      exact List.Sublist.trans (ih (m.Delete k) (i + 1)) (SyncMap.Delete_sublist m k)
    · simp only [SyncMap.Range, cleanupVisit, hexp, if_false]
      exact ih m (i + 1)

theorem run_append {V : Type} (ops1 ops2 : List (Op V)) (c : SieveCache V) :
    run c (ops1 ++ ops2) =
      match run c ops1 with
      | .error p => .error p
      | .ok c1 => run c1 ops2 := by
  induction ops1 generalizing c with
  | nil => rfl
  | cons op ops1 ih =>
    simp only [List.cons_append, run]
    cases step c op with
    | error p => rfl
    | ok c1 => exact ih c1

/-- Every call keeps the ttl and the filter. -/
theorem step_config {V : Type} (c c1 : SieveCache V) (op : Op V)
    (hstep : step c op = .ok c1) :
    c1.ttl = c.ttl ∧ c1.sieveFilter = c.sieveFilter := by
  cases op with
  | set now k value =>
    simp only [step, SieveCache.Set] at hstep
    split at hstep
    · cases hstep
    · cases hstep
      exact ⟨rfl, rfl⟩
    · cases hstep
      exact ⟨rfl, rfl⟩
  | get now k =>
    simp only [step, SieveCache.Get] at hstep
    split at hstep
    · cases hstep
      exact ⟨rfl, rfl⟩
    · split at hstep
      · cases hstep
        exact ⟨rfl, rfl⟩
      · cases hstep
        exact ⟨rfl, rfl⟩
  | delete k =>
    simp only [step, SieveCache.Delete] at hstep
    cases hstep
    exact ⟨rfl, rfl⟩
  | sweep clock =>
    simp only [step, SieveCache.cleanupTick] at hstep
    cases hstep
    exact ⟨rfl, rfl⟩
  | stop =>
    simp only [step, SieveCache.Stop] at hstep
    split at hstep
    · cases hstep
    · cases hstep
      exact ⟨rfl, rfl⟩

theorem run_config {V : Type} (ops : List (Op V)) (c c1 : SieveCache V)
    (hrun : run c ops = .ok c1) :
    c1.ttl = c.ttl ∧ c1.sieveFilter = c.sieveFilter := by
  induction ops generalizing c with
  | nil =>
    simp only [run] at hrun
    cases hrun
    exact ⟨rfl, rfl⟩
  | cons op ops ih =>
    simp only [run] at hrun
    split at hrun
    · cases hrun
    · rename_i c0 hc0
      obtain ⟨h1, h2⟩ := step_config c c0 op hc0
      obtain ⟨g1, g2⟩ := ih c0 hrun
      exact ⟨g1.trans h1, g2.trans h2⟩

/-- What one call does to the map: an admitted `Set` stores its entry, every
other call leaves a sublist of the map. -/
theorem step_store {V : Type} (c c1 : SieveCache V) (op : Op V)
    (hstep : step c op = .ok c1) :
    (∃ now k value, op = Op.set now k value ∧ c.sieveFilter k value = .ok true ∧
        c1.store = c.store.Store k ⟨value, Time.Unix (Time.Add now c.ttl)⟩) ∨
      ((∀ now k value, op = Op.set now k value → c.sieveFilter k value = .ok false) ∧
        List.Sublist c1.store c.store) := by
  cases op with
  | set now k value =>
    simp only [step, SieveCache.Set] at hstep
    split at hstep
    · cases hstep
    · rename_i hf
      cases hstep
      exact Or.inl ⟨now, k, value, rfl, hf, rfl⟩
    · rename_i hf
      cases hstep
      refine Or.inr ⟨fun now1 k1 value1 he => ?_, List.Sublist.refl _⟩
      cases he
      exact hf
  | get now k =>
    simp only [step, SieveCache.Get] at hstep
    refine Or.inr ⟨(fun _ _ _ he => by cases he), ?_⟩
    split at hstep
    · cases hstep
      exact List.Sublist.refl _
    · split at hstep
      · cases hstep
        exact SyncMap.Delete_sublist _ _
      · cases hstep
        exact List.Sublist.refl _
  | delete k =>
    simp only [step, SieveCache.Delete] at hstep
    cases hstep
    exact Or.inr ⟨(fun _ _ _ he => by cases he), SyncMap.Delete_sublist _ _⟩
  | sweep clock =>
    simp only [step, SieveCache.cleanupTick] at hstep
    cases hstep
    exact Or.inr ⟨(fun _ _ _ he => by cases he), Range_cleanupVisit_sublist _ _ _ _⟩
  | stop =>
    simp only [step, SieveCache.Stop] at hstep
    refine Or.inr ⟨(fun _ _ _ he => by cases he), ?_⟩
    split at hstep
    · cases hstep
    · cases hstep
      exact List.Sublist.refl _

/-- Every call keeps the map well formed. -/
theorem step_WF {V : Type} (c c1 : SieveCache V) (op : Op V)
    (hstep : step c op = .ok c1) (h : c.store.WF) : c1.store.WF := by
  rcases step_store c c1 op hstep with ⟨now, k, value, -, -, hst⟩ | ⟨-, hsub⟩
  · rw [hst]
    exact SyncMap.WF_Store _ _ _ h
  · exact List.Nodup.sublist (List.Sublist.map Prod.fst hsub) h

theorem run_WF {V : Type} (ops : List (Op V)) (c c1 : SieveCache V)
    (hrun : run c ops = .ok c1) (h : c.store.WF) : c1.store.WF := by
  induction ops generalizing c with
  | nil =>
    simp only [run] at hrun
    cases hrun
    exact h
  | cons op ops ih =>
    simp only [run] at hrun
    split at hrun
    · cases hrun
    · rename_i c0 hc0
      exact ih c0 hrun (step_WF c c0 op hc0 h)

theorem NewSieveCache_ok {V : Type} (ttl : Duration)
    (sieveFilter : String → Any V → Except Panic Bool) (c0 : SieveCache V)
    (h : NewSieveCache ttl sieveFilter = .ok c0) :
    c0.store = [] ∧ c0.ttl = ttl ∧ c0.sieveFilter = sieveFilter ∧
      c0.cleanupTicker.period = Int.tdiv ttl 2 ∧ 0 < Int.tdiv ttl 2 := by
  simp only [NewSieveCache, NewTicker] at h
  by_cases hd : Int.tdiv ttl 2 ≤ 0
  · simp [hd] at h
  · simp only [hd, if_false] at h
    cases h
    exact ⟨rfl, rfl, rfl, rfl, not_le.mp hd⟩

/-- A call that is not a `Set` on `key` leaves `key` without an entry or with the
entry it had. -/
theorem step_shrinks {V : Type} (c c1 : SieveCache V) (op : Op V) (key : String)
    (hw : op.writes key = false) (hstep : step c op = .ok c1) :
    c1.store.Load key = none ∨ c1.store.Load key = c.store.Load key := by
  cases op with
  | set now k value =>
    have hne : k ≠ key := by simpa [Op.writes] using hw
    exact Or.inr (step_frame c c1 _ key (by simpa [Op.touches] using hne) hstep).1
  | get now k =>
    by_cases hk : k = key
    · subst hk
      simp only [step, SieveCache.Get] at hstep
      split at hstep
      · cases hstep
        exact Or.inr rfl
      · split at hstep
        · cases hstep
          exact Or.inl (SyncMap.Load_Delete_same _ _)
        · cases hstep
          exact Or.inr rfl
    · exact Or.inr (step_frame c c1 _ key (by simpa [Op.touches] using hk) hstep).1
  | delete k =>
    simp only [step, SieveCache.Delete] at hstep
    cases hstep
    by_cases hk : k = key
    · subst hk
      exact Or.inl (SyncMap.Load_Delete_same _ _)
    · exact Or.inr (SyncMap.Load_Delete_other _ _ _ hk)
  | sweep clock =>
    simp only [step, SieveCache.cleanupTick] at hstep
    cases hstep
    exact Range_cleanupVisit_shrinks clock c.store c.store 0 key
  | stop =>
    exact Or.inr (step_frame c c1 Op.stop key rfl hstep).1

theorem run_shrinks {V : Type} (ops : List (Op V)) (c c1 : SieveCache V) (key : String)
    (hw : ∀ op ∈ ops, op.writes key = false) (hrun : run c ops = .ok c1) :
    c1.store.Load key = none ∨ c1.store.Load key = c.store.Load key := by
  induction ops generalizing c with
  | nil =>
    simp only [run] at hrun
    cases hrun
    exact Or.inr rfl
  | cons op ops ih =>
    simp only [run] at hrun
    split at hrun
    · cases hrun
    · rename_i c0 hc0
      rcases ih c0 (fun o ho => hw o (List.mem_cons_of_mem _ ho)) hrun with h | h
      · exact Or.inl h
      · rcases step_shrinks c c0 op key (hw op (List.mem_cons_self _ _)) hc0 with h2 | h2
        · exact Or.inl (h.trans h2)
        · exact Or.inr (h.trans h2)

/-- Every call keeps the entries admitted by the filter. -/
theorem step_admitted {V : Type} (c c1 : SieveCache V) (op : Op V)
    (hstep : step c op = .ok c1)
    (h : ∀ p ∈ c.store, c.sieveFilter p.1 p.2.Value = .ok true) :
    ∀ p ∈ c1.store, c1.sieveFilter p.1 p.2.Value = .ok true := by
  intro p hp
  rw [(step_config c c1 op hstep).2]
  rcases step_store c c1 op hstep with ⟨now, k, value, -, hf, hst⟩ | ⟨-, hsub⟩
  · rw [hst] at hp
    rcases SyncMap.mem_Store _ _ _ _ hp with h1 | h1
    · rw [h1]
      exact hf
    · exact h p h1
  · exact h p (hsub.subset hp)

theorem run_admitted {V : Type} (ops : List (Op V)) (c c1 : SieveCache V)
    (hrun : run c ops = .ok c1)
    (h : ∀ p ∈ c.store, c.sieveFilter p.1 p.2.Value = .ok true) :
    ∀ p ∈ c1.store, c1.sieveFilter p.1 p.2.Value = .ok true := by
  induction ops generalizing c with
  | nil =>
    simp only [run] at hrun
    cases hrun
    exact h
  | cons op ops ih =>
    simp only [run] at hrun
    split at hrun
    · cases hrun
    · rename_i c0 hc0
      exact ih c0 hrun (step_admitted c c0 op hc0 h)

/-- The two readings of `Set` agree: it returns normally exactly when the outcome
carries no panic, with the same cache. -/
theorem SieveCache.Set_eq_SetOutcome {V : Type} (c : SieveCache V) (now : Time)
    (key : String) (value : Any V) :
    c.Set now key value =
      match (c.SetOutcome now key value).2 with
      | none => .ok (c.SetOutcome now key value).1
      | some p => .error p := by
  simp only [SieveCache.Set, SieveCache.SetOutcome]
  split <;> rfl

theorem unix_within_next_second (x g : Int) (h : x + 1000000000 ≤ g) :
    x / 1000000000 < g / 1000000000 := by
  omega

theorem unix_stale_instant (a : Int) :
    (a * 999999999 + a + 1) / 1000000000 ≤ (a * 999999999 + a) / 1000000000 := by
  omega

/-- On a well-formed map, a sweep pass at `t` leaves each key with the entry it
had when that entry is not expired at `t`, and without an entry otherwise. -/
theorem cleanupTick_clockAt_Load {V : Type} (c : SieveCache V) (t : Time) (k : String)
    (h : c.store.WF) :
    (c.cleanupTick (clockAt t)).store.Load k =
      (c.store.Load k).filter (fun e => !e.expiredAt t) := by
  rw [cleanupTick_clockAt_store c t h]
  exact SyncMap.Load_filter c.store _ k h

theorem cleanupTick_clockAt_expired {V : Type} (c : SieveCache V) (t : Time) (k : String)
    (e : CacheItem V) (h : c.store.WF) (he : c.store.Load k = some e)
    (hx : e.Expiration < Time.Unix t) :
    (c.cleanupTick (clockAt t)).store.Load k = none := by
  rw [cleanupTick_clockAt_Load c t k h, he]
  simp [Option.filter, CacheItem.expiredAt, hx]

theorem cleanupTick_clockAt_live {V : Type} (c : SieveCache V) (t : Time) (k : String)
    (e : CacheItem V) (h : c.store.WF) (he : c.store.Load k = some e)
    (hx : Time.Unix t ≤ e.Expiration) :
    (c.cleanupTick (clockAt t)).store.Load k = some e := by
  rw [cleanupTick_clockAt_Load c t k h, he]
  simp [Option.filter, CacheItem.expiredAt, not_lt.mpr hx]

theorem cleanupTick_clockAt_absent {V : Type} (c : SieveCache V) (t : Time) (k : String)
    (h : c.store.WF) (he : c.store.Load k = none) :
    (c.cleanupTick (clockAt t)).store.Load k = none := by
  rw [cleanupTick_clockAt_Load c t k h, he]
  rfl

/-! ## Facts about the standing write -/

theorem run_snoc {V : Type} (ops : List (Op V)) (op : Op V) (c0 c : SieveCache V)
    (h : run c0 (ops ++ [op]) = .ok c) :
    ∃ c1 : SieveCache V, run c0 ops = .ok c1 ∧ step c1 op = .ok c := by
  rw [run_append] at h
  cases hr : run c0 ops with
  | error p => simp [hr] at h
  | ok c1 =>
    simp only [hr, run] at h
    refine ⟨c1, rfl, ?_⟩
    cases hs : step c1 op with
    | error p => simp [hs] at h
    | ok c2 =>
      simp only [hs] at h
      exact h

/-- What the scan finds is a `Set` of the key that the filter admitted, with no
`Delete` of the key and no admitted `Set` of the key among the more recent calls. -/
theorem standingWrite_some {V : Type} (sieveFilter : String → Any V → Except Panic Bool)
    (key : String) (recent : List (Op V)) (s : Time) (v : Any V)
    (h : standingWrite sieveFilter key recent = some (s, v)) :
    ∃ later earlier : List (Op V),
      recent = later ++ Op.set s key v :: earlier ∧
      sieveFilter key v = .ok true ∧
      ∀ op ∈ later, op ≠ Op.delete key ∧
        ∀ (s1 : Time) (v1 : Any V), op = Op.set s1 key v1 → sieveFilter key v1 ≠ .ok true := by
  induction recent with
  | nil => simp [standingWrite] at h
  | cons op recent ih =>
    have hcons : standingWrite sieveFilter key recent = some (s, v) →
        (op ≠ Op.delete key ∧
          ∀ (s1 : Time) (v1 : Any V), op = Op.set s1 key v1 →
            sieveFilter key v1 ≠ .ok true) →
        ∃ later earlier : List (Op V),
          op :: recent = later ++ Op.set s key v :: earlier ∧
          sieveFilter key v = .ok true ∧
          ∀ o ∈ later, o ≠ Op.delete key ∧
            ∀ (s1 : Time) (v1 : Any V), o = Op.set s1 key v1 →
              sieveFilter key v1 ≠ .ok true := by
      intro hrec hop
      obtain ⟨later, earlier, hl, hf, hall⟩ := ih hrec
      refine ⟨op :: later, earlier, by rw [hl]; rfl, hf, ?_⟩
      intro o ho
      rcases List.mem_cons.mp ho with h1 | h1
      · rw [h1]
        exact hop
      · exact hall o h1
    cases op with
    | set now k value =>
      by_cases hk : k = key
      · subst hk
        cases hf : sieveFilter k value with
        | error p =>
          simp only [standingWrite, if_true, hf] at h
          exact hcons h ⟨(fun e => by cases e), fun s1 v1 e => by cases e; simp [hf]⟩
        | ok b =>
          cases b with
          | true =>
            simp only [standingWrite, if_true, hf, Option.some.injEq, Prod.mk.injEq] at h
            obtain ⟨h1, h2⟩ := h
            subst h1
            subst h2
            exact ⟨[], recent, rfl, hf, fun o ho => by cases ho⟩
          | false =>
            simp only [standingWrite, if_true, hf] at h
            exact hcons h ⟨(fun e => by cases e), fun s1 v1 e => by cases e; simp [hf]⟩
      · simp only [standingWrite, hk, if_false] at h
        exact hcons h ⟨(fun e => by cases e), fun s1 v1 e => by cases e; exact absurd rfl hk⟩
    | get now k =>
      simp only [standingWrite] at h
      exact hcons h ⟨(fun e => by cases e), fun s1 v1 e => by cases e⟩
    | delete k =>
      by_cases hk : k = key
      · simp [standingWrite, hk] at h
      · simp only [standingWrite, hk, if_false] at h
        exact hcons h ⟨(fun e => by cases e; exact hk rfl), fun s1 v1 e => by cases e⟩
    | sweep clock =>
      simp only [standingWrite] at h
      exact hcons h ⟨(fun e => by cases e), fun s1 v1 e => by cases e⟩
    | stop =>
      simp only [standingWrite] at h
      exact hcons h ⟨(fun e => by cases e), fun s1 v1 e => by cases e⟩

/-- After a run from a store without an entry for `key`, the key has no entry or
the entry of its standing write. -/
theorem run_standing {V : Type} (ops : List (Op V)) (c0 c : SieveCache V) (key : String)
    (hfresh : c0.store.Load key = none) (hrun : run c0 ops = .ok c) :
    c.store.Load key = none ∨
      ∃ (s : Time) (v : Any V),
        standingWrite c0.sieveFilter key ops.reverse = some (s, v) ∧
        c.store.Load key = some { Value := v, Expiration := Time.Unix (Time.Add s c0.ttl) } := by
  induction ops using List.reverseRecOn generalizing c with
  | nil =>
    simp only [run] at hrun
    cases hrun
    exact Or.inl hfresh
  | append_singleton ops op ih =>
    obtain ⟨c1, hrun1, hstep⟩ := run_snoc ops op c0 c hrun
    obtain ⟨httl, hfil⟩ := run_config ops c0 c1 hrun1
    have ih1 := ih c1 hrun1
    have hrev : (ops ++ [op]).reverse = op :: ops.reverse := by simp
    rw [hrev]
    -- a call that leaves the scan as it was and does not write the key
    have hkeep : standingWrite c0.sieveFilter key (op :: ops.reverse) =
          standingWrite c0.sieveFilter key ops.reverse →
        (c.store.Load key = none ∨ c.store.Load key = c1.store.Load key) →
        c.store.Load key = none ∨
          ∃ (s : Time) (v : Any V),
            standingWrite c0.sieveFilter key (op :: ops.reverse) = some (s, v) ∧
            c.store.Load key =
              some { Value := v, Expiration := Time.Unix (Time.Add s c0.ttl) } := by
      intro hsame hshr
      rcases hshr with h | h
      · exact Or.inl h
      · rcases ih1 with h1 | ⟨s, v, hs, hl⟩
        · exact Or.inl (h.trans h1)
        · exact Or.inr ⟨s, v, hsame.trans hs, h.trans hl⟩
    cases op with
    | set now k value =>
      by_cases hk : k = key
      · subst hk
        simp only [step, SieveCache.Set, hfil] at hstep
        cases hf : c0.sieveFilter k value with
        | error p => simp [hf] at hstep
        | ok b =>
          cases b with
          | true =>
            simp only [hf] at hstep
            cases hstep
            refine Or.inr ⟨now, value, by simp [standingWrite, hf], ?_⟩
            rw [← httl]
            exact SyncMap.Load_Store_same _ _ _
          | false =>
            simp only [hf] at hstep
            cases hstep
            exact hkeep (by simp [standingWrite, hf]) (Or.inr rfl)
      · exact hkeep (by simp [standingWrite, hk])
          (step_shrinks c1 c _ key (by simpa [Op.writes] using hk) hstep)
    | get now k =>
      exact hkeep (by simp [standingWrite]) (step_shrinks c1 c (Op.get now k) key rfl hstep)
    | delete k =>
      by_cases hk : k = key
      · subst hk
        simp only [step, SieveCache.Delete] at hstep
        cases hstep
        exact Or.inl (SyncMap.Load_Delete_same _ _)
      · exact hkeep (by simp [standingWrite, hk])
          (step_shrinks c1 c (Op.delete k) key rfl hstep)
    | sweep clock =>
      exact hkeep (by simp [standingWrite]) (step_shrinks c1 c (Op.sweep clock) key rfl hstep)
    | stop =>
      exact hkeep (by simp [standingWrite]) (step_shrinks c1 c Op.stop key rfl hstep)

/-! ## Facts about reclamation by the sweeper -/

/-- A sweep pass whose every clock reading is past the expiration of the entry of
`key` leaves `key` without an entry. -/
theorem Range_cleanupVisit_reclaims {V : Type} (clock : Nat → Time) (key : String)
    (e : CacheItem V) (hpast : ∀ i : Nat, e.Expiration < Time.Unix (clock i))
    (entries m : SyncMap (CacheItem V)) (i : Nat)
    (h : m.Load key = none ∨ (m.Load key = some e ∧ entries.Load key = some e)) :
    (SyncMap.Range (cleanupVisit clock) entries (m, i)).1.Load key = none := by
  induction entries generalizing m i with
  | nil =>
    rcases h with h | ⟨-, h⟩
    · exact h
    · simp [SyncMap.Load] at h
  | cons p entries ih =>
    obtain ⟨k, item⟩ := p
    by_cases hk : k = key
    · subst hk
      rcases h with h | ⟨hm, he⟩
      · by_cases hexp : Time.Unix (clock i) > item.Expiration
        · simp only [SyncMap.Range, cleanupVisit, hexp, if_true]
          exact ih _ _ (Or.inl (SyncMap.Load_Delete_same _ _))
        · simp only [SyncMap.Range, cleanupVisit, hexp, if_false]
          exact ih _ _ (Or.inl h)
      · simp only [SyncMap.Load, if_true, Option.some.injEq] at he
        subst he
        have hexp : Time.Unix (clock i) > item.Expiration := hpast i
        simp only [SyncMap.Range, cleanupVisit, hexp, if_true]
        exact ih _ _ (Or.inl (SyncMap.Load_Delete_same _ _))
    · have hrest : SyncMap.Load ((k, item) :: entries) key = SyncMap.Load entries key := by
        simp [SyncMap.Load, hk]
      rw [hrest] at h
      by_cases hexp : Time.Unix (clock i) > item.Expiration
      · simp only [SyncMap.Range, cleanupVisit, hexp, if_true]
        apply ih
        rw [SyncMap.Load_Delete_other _ _ _ hk]
        exact h
      · simp only [SyncMap.Range, cleanupVisit, hexp, if_false]
        exact ih _ _ h

theorem cleanupTick_reclaims {V : Type} (c : SieveCache V) (clock : Nat → Time)
    (key : String) (e : CacheItem V) (hpast : ∀ i : Nat, e.Expiration < Time.Unix (clock i))
    (h : c.store.Load key = none ∨ c.store.Load key = some e) :
    (c.cleanupTick clock).store.Load key = none := by
  apply Range_cleanupVisit_reclaims clock key e hpast
  rcases h with h | h
  · exact Or.inl h
  · exact Or.inr ⟨h, h⟩

/-- A run without a `Set` on `key` that contains a sweep pass reading the clock
past the expiration of the entry of `key` ends with `key` without an entry. -/
theorem run_reclaims {V : Type} (ops : List (Op V)) (c c1 : SieveCache V) (key : String)
    (e : CacheItem V) (clock : Nat → Time)
    (hw : ∀ op ∈ ops, op.writes key = false)
    (hmem : Op.sweep clock ∈ ops)
    (hpast : ∀ i : Nat, e.Expiration < Time.Unix (clock i))
    (hload : c.store.Load key = none ∨ c.store.Load key = some e)
    (hrun : run c ops = .ok c1) :
    c1.store.Load key = none := by
  obtain ⟨pre, post, hsplit⟩ := List.append_of_mem hmem
  subst hsplit
  rw [run_append] at hrun
  cases hpre : run c pre with
  | error p => simp [hpre] at hrun
  | ok c2 =>
    simp only [hpre, run, step] at hrun
    have h2 : c2.store.Load key = none ∨ c2.store.Load key = some e := by
      rcases run_shrinks pre c c2 key (fun o ho => hw o (List.mem_append_left _ ho)) hpre
        with h | h
      · exact Or.inl h
      · rcases hload with h3 | h3
        · exact Or.inl (h.trans h3)
        · exact Or.inr (h.trans h3)
    have h3 := cleanupTick_reclaims c2 clock key e hpast h2
    rcases run_shrinks post _ c1 key
        (fun o ho => hw o (List.mem_append_right _ (List.mem_cons_of_mem _ ho))) hrun
      with h | h
    · exact h
    · exact h.trans h3

/-- With ticks five seconds apart from `t0 ≤ s`, some tick falls at or after
`s + 11s` and no later than any `till ≥ s + 20s`. -/
theorem tick_after_eleven_seconds (t0 s till : Int) (h1 : t0 ≤ s)
    (h2 : s + 20000000000 ≤ till) :
    ∃ n : Nat, n < Int.toNat ((till - t0) / 5000000000) ∧
      s + 11000000000 ≤ t0 + ((n : Int) + 1) * 5000000000 := by
  refine ⟨Int.toNat ((s + 11000000000 - t0 + 4999999999) / 5000000000 - 1), ?_, ?_⟩
  · omega
  · omega

theorem Ticker.mem_ticksBetween (t : Ticker) (created s till : Time) (n : Nat)
    (hn : n < Int.toNat ((till - created) / t.period))
    (hs : s < t.tickTime created n) :
    t.tickTime created n ∈ t.ticksBetween created s till := by
  unfold Ticker.ticksBetween
  rw [List.mem_filter]
  refine ⟨List.mem_map.mpr ⟨n, List.mem_range.mpr hn, rfl⟩, ?_⟩
  simpa using hs

theorem Op.writes_of_no_access {V : Type} (op : Op V) (key : String)
    (h : op.isSweep = true ∨ op.touches key = false) : op.writes key = false := by
  cases op with
  | set now k value =>
    rcases h with h | h
    · simp [Op.isSweep] at h
    · simpa [Op.touches, Op.writes] using h
  | get now k => rfl
  | delete k => rfl
  | sweep clock => rfl
  | stop => rfl

theorem deadline_twenty_seconds (s till : Int)
    (h : s + 10 * 1000000000 + 10 * 1000000000 ≤ till) : s + 20000000000 ≤ till := by
  omega

theorem tick_after_set (t0 s : Int) (n : Nat)
    (h : s + 11000000000 ≤ t0 + ((n : Int) + 1) * 5000000000) :
    s < t0 + ((n : Int) + 1) * 5000000000 := by
  omega

theorem unix_past_ten_seconds (s x r : Int) (h : s + 11000000000 ≤ x) (hr : x ≤ r) :
    (s + 10 * 1000000000) / 1000000000 < r / 1000000000 := by
  omega

/-! ## Facts about the atomic steps of `Get` -/

/-- Running the two parts of `Get` back to back is `Get`. -/
theorem SieveCache.GetFinish_GetLoad {V : Type} (c : SieveCache V) (now : Time)
    (key : String) : c.GetFinish (c.GetLoad now key) = c.Get now key := by
  simp only [SieveCache.GetLoad, SieveCache.Get]
  cases c.store.Load key with
  | none => rfl
  | some e =>
    by_cases h : Time.Unix now > e.Expiration
    · simp [h, SieveCache.GetFinish]
    · simp [h, SieveCache.GetFinish]

/-- When an admitted `Set` on the key runs between the two parts of a `Get` that
found the entry expired, the pending `Delete` removes the entry just written, and
the next `Get` of the key is not-found at any time. -/
theorem Get_delete_after_concurrent_Set {V : Type} (c : SieveCache V) (k : String)
    (e : CacheItem V) (v : Any V) (g s g2 : Time)
    (hload : c.store.Load k = some e) (hexp : e.Expiration < Time.Unix g)
    (hadm : c.sieveFilter k v = .ok true) :
    ∃ c1 : SieveCache V, c.Set s k v = .ok c1 ∧
      c1.store.Load k = some { Value := v, Expiration := Time.Unix (Time.Add s c.ttl) } ∧
      (c1.GetFinish (c.GetLoad g k)).1 = (none, false) ∧
      (c1.GetFinish (c.GetLoad g k)).2.store.Load k = none ∧
      ((c1.GetFinish (c.GetLoad g k)).2.Get g2 k).1 = (none, false) := by
  have hpending : c.GetLoad g k = GetPending.delete k := by
    simp [SieveCache.GetLoad, hload, hexp]
  refine ⟨_, SieveCache.Set_admitted c s k v hadm, SyncMap.Load_Store_same _ _ _, ?_, ?_, ?_⟩
  · rw [hpending]
    rfl
  · rw [hpending]
    exact SyncMap.Load_Delete_same _ _
  · rw [hpending, SieveCache.Get_absent _ g2 k (SyncMap.Load_Delete_same _ _)]

theorem unix_le_imp_within_second (g x : Int)
    (h : g / 1000000000 ≤ x / 1000000000) : g < x + 1000000000 := by
  omega

/-! ## Claims on runs, sweeps and interleavings -/

/-- C11, as stated, fails in its clause that the entry is not yet expired at the
read time: on a fresh store with a ttl of one second, `Set("a", 7)` at the epoch
stamps second 1; a `Get("a")` at 1999999999 ns reads strictly after `set time +
ttl` and strictly after the stamped instant, yet it returns `(7, true)`. -/
theorem C11_counterexample :
    NewSieveCache Second acceptAll = .ok oneSecondCache ∧
      run oneSecondCache [Op.set 0 "a" (some 7)] = .ok oneSecondCacheA ∧
      oneSecondCacheA.store.Load "a" = some { Value := some 7, Expiration := 1 } ∧
      Time.Add 0 Second < 1999999999 ∧
      (1 : Int) * Second < 1999999999 ∧
      oneSecondCacheA.Get 1999999999 "a" = ((some 7, true), oneSecondCacheA) := by
  refine ⟨?_, rfl, rfl, by decide, by decide, rfl⟩
  rw [NewSieveCache_of_two_le Second acceptAll (by decide)]
  rfl

/-- C11, amended: take any run of `Set`, `Get`, `Delete`, sweep and `Stop` calls on
a freshly constructed store, and a `Get(k)` made after it that returns `(v, true)`.
Then the run contains a `Set(k, v)` that the filter admitted, after which the run
has no `Delete(k)` and no other admitted `Set` on `k` (it is the standing write of
`k`), the Unix second of the read is not past the Unix second of `set time + ttl`
that this `Set` stamped, and so the read is less than one second past `set time +
ttl`.  A `Get` never returns a value that was not written or was rejected. -/
theorem C11_get_returns_standing_write {V : Type} (ttl : Duration)
    (sieveFilter : String → Any V → Except Panic Bool) (c0 c : SieveCache V)
    (ops : List (Op V)) (k : String) (g : Time) (v : Any V)
    (hnew : NewSieveCache ttl sieveFilter = .ok c0)
    (hrun : run c0 ops = .ok c)
    (hget : (c.Get g k).1 = (v, true)) :
    ∃ (s : Time) (before after : List (Op V)),
      ops = before ++ Op.set s k v :: after ∧
      sieveFilter k v = .ok true ∧
      (∀ op ∈ after, op ≠ Op.delete k ∧
        ∀ (s1 : Time) (v1 : Any V), op = Op.set s1 k v1 → sieveFilter k v1 ≠ .ok true) ∧
      Time.Unix g ≤ Time.Unix (Time.Add s ttl) ∧
      g < Time.Add (Time.Add s ttl) Second ∧
      standingWrite sieveFilter k ops.reverse = some (s, v) := by
  obtain ⟨hstore, httl, hfilter, -, -⟩ := NewSieveCache_ok ttl sieveFilter c0 hnew
  have hfresh : c0.store.Load k = none := by rw [hstore]; rfl
  rcases run_standing ops c0 c k hfresh hrun with hnone | ⟨s, w, hstand, hload⟩
  · rw [SieveCache.Get_absent c g k hnone] at hget
    simp at hget
  · rw [hfilter] at hstand
    rw [httl] at hload
    by_cases hexp : Time.Unix (Time.Add s ttl) < Time.Unix g
    · rw [SieveCache.Get_expired c g k _ hload hexp] at hget
      simp at hget
    · rw [SieveCache.Get_live c g k _ hload (not_lt.mp hexp)] at hget
      have hv : w = v := by simpa using hget
      subst hv
      obtain ⟨later, earlier, hsplit, hadm, hlater⟩ :=
        standingWrite_some sieveFilter k ops.reverse s w hstand
      refine ⟨s, earlier.reverse, later.reverse, ?_, hadm, ?_, not_lt.mp hexp,
        unix_le_imp_within_second g (s + ttl) (not_lt.mp hexp), hstand⟩
      · have h := congrArg List.reverse hsplit
        simpa using h
      · intro op hop
        exact hlater op (List.mem_reverse.mp hop)

/-- C11 on a ten-second store whose filter rejects nil: the read after an admitted
write, a rejected write, a read, a sweep pass and a delete of another key. -/
theorem C11_get_returns_standing_write_witness :
    ∃ (s : Time) (before after : List (Op Nat)),
      [Op.set 0 "a" (some 7), Op.set 1 "a" none, Op.get 2 "a", Op.sweep (clockAt 3),
        Op.delete "b"] = before ++ Op.set s "a" (some 7) :: after ∧
      acceptNonNil "a" (some 7) = .ok true ∧
      (∀ op ∈ after, op ≠ Op.delete "a" ∧
        ∀ (s1 : Time) (v1 : Any Nat), op = Op.set s1 "a" v1 →
          acceptNonNil "a" v1 ≠ .ok true) ∧
      Time.Unix 4000000000 ≤ Time.Unix (Time.Add s (10 * Second)) ∧
      4000000000 < Time.Add (Time.Add s (10 * Second)) Second ∧
      standingWrite acceptNonNil "a"
        [Op.set 0 "a" (some 7), Op.set 1 "a" none, Op.get 2 "a", Op.sweep (clockAt 3),
          Op.delete "b"].reverse = some (s, some 7) :=
  C11_get_returns_standing_write (10 * Second) acceptNonNil tenSecondCache
    { tenSecondCache with store := [("a", { Value := some 7, Expiration := 10 })] }
    [Op.set 0 "a" (some 7), Op.set 1 "a" none, Op.get 2 "a", Op.sweep (clockAt 3),
     Op.delete "b"]
    "a" 4000000000 (some 7)
    (NewSieveCache_of_two_le (10 * Second) acceptNonNil (by decide)) rfl rfl

/-- C12: construct the store with a ttl of ten seconds at `t0`, so that its ticker
ticks every five seconds.  After an admitted `Set(k, v)` at `s ≥ t0`, let the calls
that follow be sweep passes and calls on other keys only, and let every tick after
`s` and up to `till` have its sweep pass among them, reading the clock at or after
the tick.  Then for every `till ≥ s + 10s + 10s` the key `k` has no entry. -/
theorem C12_sweeper_reclaims_entry {V : Type}
    (sieveFilter : String → Any V → Except Panic Bool) (c0 c c2 : SieveCache V)
    (earlier ops : List (Op V)) (k : String) (v : Any V) (t0 s till : Time)
    (hnew : NewSieveCache (10 * Second) sieveFilter = .ok c0)
    (hearlier : run c0 earlier = .ok c)
    (ht0 : t0 ≤ s)
    (hadm : sieveFilter k v = .ok true)
    (hrun : run c (Op.set s k v :: ops) = .ok c2)
    (haccess : ∀ op ∈ ops, op.isSweep = true ∨ op.touches k = false)
    (hticks : ∀ x ∈ c0.cleanupTicker.ticksBetween t0 s till,
      ∃ clock : Nat → Time, Op.sweep clock ∈ ops ∧ ∀ i : Nat, x ≤ clock i)
    (htill : Time.Add (Time.Add s (10 * Second)) (10 * Second) ≤ till) :
    c2.store.Load k = none ∧ c0.cleanupTicker.period = 5 * Second := by
  obtain ⟨-, httl0, hfilter0, hperiod, -⟩ := NewSieveCache_ok _ sieveFilter c0 hnew
  obtain ⟨httl, hfilter⟩ := run_config earlier c0 c hearlier
  have hper : c0.cleanupTicker.period = 5000000000 := by
    rw [hperiod]
    decide
  have hadm1 : c.sieveFilter k v = .ok true := by rw [hfilter, hfilter0]; exact hadm
  have hcttl : c.ttl = 10 * Second := httl.trans httl0
  simp only [run, step, SieveCache.Set_admitted c s k v hadm1, hcttl] at hrun
  obtain ⟨n, hn, hge⟩ :=
    tick_after_eleven_seconds t0 s till ht0 (deadline_twenty_seconds s till htill)
  have htick : c0.cleanupTicker.tickTime t0 n = t0 + ((n : Int) + 1) * 5000000000 := by
    simp only [Ticker.tickTime, hper]
  have hmem : c0.cleanupTicker.tickTime t0 n ∈ c0.cleanupTicker.ticksBetween t0 s till := by
    apply Ticker.mem_ticksBetween
    · rw [hper]
      exact hn
    · rw [htick]
      exact tick_after_set t0 s n hge
  obtain ⟨clock, hsweep, hclock⟩ := hticks _ hmem
  rw [htick] at hclock
  refine ⟨?_, by rw [hper]; decide⟩
  exact run_reclaims ops _ c2 k
    { Value := v, Expiration := Time.Unix (Time.Add s (10 * Second)) } clock
    (fun op hop => Op.writes_of_no_access op k (haccess op hop)) hsweep
    (fun i => unix_past_ten_seconds s _ (clock i) hge (hclock i))
    (Or.inr (SyncMap.Load_Store_same _ _ _)) hrun

/-- C12 with construction and `Set` at the epoch and sweep passes at the ticks at
5, 10, 15 and 20 seconds. -/
theorem C12_sweeper_reclaims_entry_witness :
    tenSecondCache.store.Load "a" = none ∧
      tenSecondCache.cleanupTicker.period = 5 * Second :=
  C12_sweeper_reclaims_entry acceptNonNil tenSecondCache tenSecondCache tenSecondCache []
    [Op.sweep (clockAt 5000000000), Op.sweep (clockAt 10000000000),
     Op.sweep (clockAt 15000000000), Op.sweep (clockAt 20000000000)]
    "a" (some 7) 0 0 20000000000
    (NewSieveCache_of_two_le (10 * Second) acceptNonNil (by decide)) rfl (by decide) rfl rfl
    (by
      intro op hop
      simp only [List.mem_cons, List.mem_singleton, List.not_mem_nil, or_false] at hop
      rcases hop with h | h | h | h <;> subst h <;> exact Or.inl rfl)
    (by
      intro x hx
      have hlist : tenSecondCache.cleanupTicker.ticksBetween 0 0 20000000000 =
          [5000000000, 10000000000, 15000000000, 20000000000] := by decide
      rw [hlist] at hx
      simp only [List.mem_cons, List.mem_singleton, List.not_mem_nil, or_false] at hx
      rcases hx with h | h | h | h <;> subst h
      · exact ⟨clockAt 5000000000, by simp, fun _ => le_refl _⟩
      · exact ⟨clockAt 10000000000, by simp, fun _ => le_refl _⟩
      · exact ⟨clockAt 15000000000, by simp, fun _ => le_refl _⟩
      · exact ⟨clockAt 20000000000, by simp, fun _ => le_refl _⟩)
    (by decide)

/-- C13: when the filter panics with `p` during `Set(k, v)`, the call ends in the
panic `p` (the store does not swallow it) and the cache at that point is exactly
the cache before the call: no entry is inserted or modified, for any key. -/
theorem C13_filter_panic_propagates {V : Type} (c : SieveCache V) (now : Time)
    (k : String) (v : Any V) (p : Panic) (hpanic : c.sieveFilter k v = .error p) :
    c.Set now k v = .error p ∧
      run c [Op.set now k v] = .error p ∧
      c.SetOutcome now k v = (c, some p) ∧
      (c.SetOutcome now k v).1.store = c.store ∧
      ∀ key : String, (c.SetOutcome now k v).1.store.Load key = c.store.Load key := by
  have hout : c.SetOutcome now k v = (c, some p) := by
    simp [SieveCache.SetOutcome, hpanic]
  have hset : c.Set now k v = .error p := by
    simp [SieveCache.Set, hpanic]
  refine ⟨hset, ?_, hout, ?_, fun key => ?_⟩
  · simp [run, step, hset]
  · rw [hout]
  · rw [hout]

/-- C13 on a store whose filter always panics, with an entry already under `a`. -/
theorem C13_filter_panic_propagates_witness :
    panicCache.Set 5 "a" (some 8) = .error (Panic.inFilter "boom") ∧
      run panicCache [Op.set 5 "a" (some 8)] = .error (Panic.inFilter "boom") ∧
      panicCache.SetOutcome 5 "a" (some 8) = (panicCache, some (Panic.inFilter "boom")) ∧
      (panicCache.SetOutcome 5 "a" (some 8)).1.store = panicCache.store ∧
      ∀ key : String,
        (panicCache.SetOutcome 5 "a" (some 8)).1.store.Load key = panicCache.store.Load key :=
  C13_filter_panic_propagates panicCache 5 "a" (some 8) (Panic.inFilter "boom") rfl

/-- C14: the claim fails on the code.  The store holds `a` with an entry expired
at second 1.  A `Get("a")` at second 5 loads that entry and finds it expired; a
concurrent `Set("a", 8)` at second 5, admitted, completes; then the pending
`Delete` of the `Get` runs and removes the entry just written, so the next
`Get("a")`, still at second 5 and within the ttl, is not-found.  In either
sequential order of the first `Get` and the `Set`, a `Get` that follows the `Set`
returns `(8, true)`.  A sweep visit that deletes after the `Set` does the same. -/
theorem C14_get_delete_loses_concurrent_set :
    oneSecondCacheA.GetLoad 5000000000 "a" = GetPending.delete "a" ∧
      oneSecondCacheA.Set 5000000000 "a" (some 8) = .ok oneSecondCacheB ∧
      oneSecondCacheB.GetFinish (oneSecondCacheA.GetLoad 5000000000 "a") =
        ((none, false), oneSecondCache) ∧
      oneSecondCache.Get 5000000000 "a" = ((none, false), oneSecondCache) ∧
      oneSecondCacheA.Get 5000000000 "a" = ((none, false), oneSecondCache) ∧
      oneSecondCache.Set 5000000000 "a" (some 8) = .ok oneSecondCacheB ∧
      oneSecondCacheB.Get 5000000000 "a" = ((some 8, true), oneSecondCacheB) ∧
      cleanupVisit (clockAt 5000000000) (oneSecondCacheB.store, 0) "a"
          { Value := some 7, Expiration := 1 } = (([], 1), true) :=
  ⟨rfl, rfl, rfl, rfl, rfl, rfl, rfl, rfl⟩

/-- C15, as stated, fails: the entry of `a` expires at second 1, that is at the
instant 1000000000 ns; a sweep pass at the scan time 1999999999 ns runs strictly
after that instant, yet it keeps the entry and leaves the store as it was. -/
theorem C15_counterexample :
    oneSecondCacheA.store.WF ∧
      oneSecondCacheA.store.Load "a" = some { Value := some 7, Expiration := 1 } ∧
      (1 : Int) * Second < 1999999999 ∧
      (oneSecondCacheA.cleanupTick (clockAt 1999999999)).store.Load "a" =
        some { Value := some 7, Expiration := 1 } ∧
      oneSecondCacheA.cleanupTick (clockAt 1999999999) = oneSecondCacheA :=
  ⟨by decide, rfl, by decide, rfl, rfl⟩

/-- C15, amended: on a map with one binding per key, a sweep pass that runs at the
scan time `t` leaves exactly the bindings whose expiration second is not before
the Unix second of `t`: a key whose expiration second is strictly before the Unix
second of `t` ends up without an entry, every other entry is kept with its value
and expiration, no entry is added, and nothing else in the cache changes. -/
theorem C15_sweep_pass_is_filter {V : Type} (c : SieveCache V) (t : Time)
    (hwf : c.store.WF) :
    (c.cleanupTick (clockAt t)).store = c.store.filter (fun p => !p.2.expiredAt t) ∧
      (∀ (k : String) (e : CacheItem V), c.store.Load k = some e →
        e.Expiration < Time.Unix t → (c.cleanupTick (clockAt t)).store.Load k = none) ∧
      (∀ (k : String) (e : CacheItem V), c.store.Load k = some e →
        Time.Unix t ≤ e.Expiration → (c.cleanupTick (clockAt t)).store.Load k = some e) ∧
      (∀ k : String, c.store.Load k = none →
        (c.cleanupTick (clockAt t)).store.Load k = none) ∧
      (∀ p ∈ (c.cleanupTick (clockAt t)).store, p ∈ c.store) ∧
      c.cleanupTick (clockAt t) =
        { c with store := c.store.filter (fun p => !p.2.expiredAt t) } := by
  have hst := cleanupTick_clockAt_store c t hwf
  refine ⟨hst, fun k e he hx => cleanupTick_clockAt_expired c t k e hwf he hx,
    fun k e he hx => cleanupTick_clockAt_live c t k e hwf he hx,
    fun k he => cleanupTick_clockAt_absent c t k hwf he, fun p hp => ?_, ?_⟩
  · rw [hst] at hp
    exact (List.mem_filter.mp hp).1
  · simp only [SieveCache.cleanupTick] at hst ⊢
    rw [hst]

/-- C15 on a store with an entry expired at second 1 and an entry valid till
second 30, swept at second 5. -/
theorem C15_sweep_pass_is_filter_witness :
    (twoEntryCache.cleanupTick (clockAt 5000000000)).store =
        twoEntryCache.store.filter (fun p => !p.2.expiredAt 5000000000) ∧
      (∀ (k : String) (e : CacheItem Nat), twoEntryCache.store.Load k = some e →
        e.Expiration < Time.Unix 5000000000 →
        (twoEntryCache.cleanupTick (clockAt 5000000000)).store.Load k = none) ∧
      (∀ (k : String) (e : CacheItem Nat), twoEntryCache.store.Load k = some e →
        Time.Unix 5000000000 ≤ e.Expiration →
        (twoEntryCache.cleanupTick (clockAt 5000000000)).store.Load k = some e) ∧
      (∀ k : String, twoEntryCache.store.Load k = none →
        (twoEntryCache.cleanupTick (clockAt 5000000000)).store.Load k = none) ∧
      (∀ p ∈ (twoEntryCache.cleanupTick (clockAt 5000000000)).store, p ∈ twoEntryCache.store) ∧
      twoEntryCache.cleanupTick (clockAt 5000000000) =
        { twoEntryCache with
          store := twoEntryCache.store.filter (fun p => !p.2.expiredAt 5000000000) } :=
  C15_sweep_pass_is_filter twoEntryCache 5000000000 (by decide)

/-- C16: on a map with one binding per key, a sweep pass at `t` is invisible to a
later read: for every key `k` and read time `g ≥ t`, `Get(k)` at `g` returns the
same pair on the swept store as on the unswept one and the two stores afterwards
agree on `k`; and the sweep at `t` removes a present key exactly when `Get` of
that key at `t` reports it not-found. -/
theorem C16_sweep_invisible_to_reads {V : Type} (c : SieveCache V) (t g : Time)
    (k : String) (hwf : c.store.WF) (htg : t ≤ g) :
    ((c.cleanupTick (clockAt t)).Get g k).1 = (c.Get g k).1 ∧
      ((c.cleanupTick (clockAt t)).Get g k).2.store.Load k = (c.Get g k).2.store.Load k ∧
      ∀ e : CacheItem V, c.store.Load k = some e →
        ((c.cleanupTick (clockAt t)).store.Load k = none ↔ (c.Get t k).1 = (none, false)) := by
  have hexp := fun e he hx => cleanupTick_clockAt_expired c t k e hwf he hx
  have hkeep := fun e he hx => cleanupTick_clockAt_live c t k e hwf he hx
  have hnone := cleanupTick_clockAt_absent c t k hwf
  have hmono : Time.Unix t ≤ Time.Unix g := Time.Unix_mono htg
  cases hl : c.store.Load k with
  | none =>
    have hs := hnone hl
    rw [SieveCache.Get_absent _ g k hs, SieveCache.Get_absent c g k hl]
    exact ⟨rfl, hs.trans hl.symm, fun e he => by cases he⟩
  | some e =>
    by_cases hx : e.Expiration < Time.Unix t
    · have hs := hexp e hl hx
      have hxg : e.Expiration < Time.Unix g := lt_of_lt_of_le hx hmono
      rw [SieveCache.Get_absent _ g k hs, SieveCache.Get_expired c g k e hl hxg]
      refine ⟨rfl, hs.trans (SyncMap.Load_Delete_same _ _).symm, fun e1 _ => ?_⟩
      rw [SieveCache.Get_expired c t k e hl hx]
      exact ⟨fun _ => rfl, fun _ => hs⟩
    · have hs := hkeep e hl (not_lt.mp hx)
      refine ⟨?_, ?_, fun e1 _ => ?_⟩
      · by_cases hxg : e.Expiration < Time.Unix g
        · rw [SieveCache.Get_expired _ g k e hs hxg, SieveCache.Get_expired c g k e hl hxg]
        · rw [SieveCache.Get_live _ g k e hs (not_lt.mp hxg),
            SieveCache.Get_live c g k e hl (not_lt.mp hxg)]
      · by_cases hxg : e.Expiration < Time.Unix g
        · rw [SieveCache.Get_expired _ g k e hs hxg, SieveCache.Get_expired c g k e hl hxg]
          exact (SyncMap.Load_Delete_same _ _).trans (SyncMap.Load_Delete_same _ _).symm
        · rw [SieveCache.Get_live _ g k e hs (not_lt.mp hxg),
            SieveCache.Get_live c g k e hl (not_lt.mp hxg)]
          exact hs.trans hl.symm
      · rw [SieveCache.Get_live c t k e hl (not_lt.mp hx), hs]
        constructor
        · intro h
          cases h
        · intro h
          simp at h

/-- C16 on a store with an expired and a valid entry, swept at second 5 and read
at second 6. -/
theorem C16_sweep_invisible_to_reads_witness :
    ((twoEntryCache.cleanupTick (clockAt 5000000000)).Get 6000000000 "a").1 =
        (twoEntryCache.Get 6000000000 "a").1 ∧
      ((twoEntryCache.cleanupTick (clockAt 5000000000)).Get 6000000000 "a").2.store.Load "a" =
        (twoEntryCache.Get 6000000000 "a").2.store.Load "a" ∧
      ∀ e : CacheItem Nat, twoEntryCache.store.Load "a" = some e →
        ((twoEntryCache.cleanupTick (clockAt 5000000000)).store.Load "a" = none ↔
          (twoEntryCache.Get 5000000000 "a").1 = (none, false)) :=
  C16_sweep_invisible_to_reads twoEntryCache 5000000000 6000000000 "a" (by decide) (by decide)

/-- C17: in every state reached from a freshly constructed store by a run of
`Set`, `Get`, `Delete`, sweep and `Stop` calls, every entry of the map is admitted
by the filter; and a call that is not a `Set` admitted by the filter leaves a
sublist of the map, so it neither adds nor changes an entry. -/
theorem C17_admission_invariant {V : Type} (ttl : Duration)
    (sieveFilter : String → Any V → Except Panic Bool) (c0 c : SieveCache V)
    (ops : List (Op V)) (hnew : NewSieveCache ttl sieveFilter = .ok c0)
    (hrun : run c0 ops = .ok c) :
    (∀ p ∈ c.store, sieveFilter p.1 p.2.Value = .ok true) ∧
      (∀ (k : String) (e : CacheItem V), c.store.Load k = some e →
        sieveFilter k e.Value = .ok true) ∧
      c.store.WF ∧
      ∀ (d d1 : SieveCache V) (op : Op V), step d op = .ok d1 →
        (¬ ∃ now k value, op = Op.set now k value ∧ d.sieveFilter k value = .ok true) →
        List.Sublist d1.store d.store ∧ ∀ p ∈ d1.store, p ∈ d.store := by
  obtain ⟨hstore, -, hfilter, -, -⟩ := NewSieveCache_ok ttl sieveFilter c0 hnew
  have hinit : ∀ p ∈ c0.store, c0.sieveFilter p.1 p.2.Value = .ok true := by
    intro p hp
    rw [hstore] at hp
    cases hp
  have hall : ∀ p ∈ c.store, sieveFilter p.1 p.2.Value = .ok true := by
    intro p hp
    have h := run_admitted ops c0 c hrun hinit p hp
    rwa [(run_config ops c0 c hrun).2, hfilter] at h
  have hwf : c.store.WF := run_WF ops c0 c hrun (by rw [hstore]; exact SyncMap.WF_nil)
  refine ⟨hall, fun k e he => hall (k, e) (SyncMap.mem_of_Load _ _ _ he), hwf, ?_⟩
  intro d d1 op hstep hnot
  rcases step_store d d1 op hstep with ⟨now, k, value, hop, hf, -⟩ | ⟨-, hsub⟩
  · exact absurd ⟨now, k, value, hop, hf⟩ hnot
  · exact ⟨hsub, fun p hp => hsub.subset hp⟩

/-- C17 on a ten-second store whose filter rejects nil: an admitted write, a
rejected write, a read, a sweep pass and a delete of another key. -/
theorem C17_admission_invariant_witness :
    (∀ p ∈ ({ tenSecondCache with
                store := [("a", { Value := some 7, Expiration := 10 })] } :
              SieveCache Nat).store,
        acceptNonNil p.1 p.2.Value = .ok true) ∧
      (∀ (k : String) (e : CacheItem Nat),
        ({ tenSecondCache with
            store := [("a", { Value := some 7, Expiration := 10 })] } :
          SieveCache Nat).store.Load k = some e →
        acceptNonNil k e.Value = .ok true) ∧
      ({ tenSecondCache with
          store := [("a", { Value := some 7, Expiration := 10 })] } :
        SieveCache Nat).store.WF ∧
      ∀ (d d1 : SieveCache Nat) (op : Op Nat), step d op = .ok d1 →
        (¬ ∃ now k value, op = Op.set now k value ∧ d.sieveFilter k value = .ok true) →
        List.Sublist d1.store d.store ∧ ∀ p ∈ d1.store, p ∈ d.store :=
  C17_admission_invariant (10 * Second) acceptNonNil tenSecondCache
    { tenSecondCache with store := [("a", { Value := some 7, Expiration := 10 })] }
    [Op.set 0 "a" (some 7), Op.set 1 "b" none, Op.get 2 "a", Op.sweep (clockAt 3),
     Op.delete "b"]
    (NewSieveCache_of_two_le (10 * Second) acceptNonNil (by decide)) rfl

/-- C18: an admitted `Set(k, v)` at `s` stores the Unix second of `s + ttl`, the
floor of that instant in seconds.  After it, with no other `Set` on `k` in
between, `Get(k)` at any `g ≥ s + ttl + 1s` returns `(nil, false)`.  And for a
positive ttl there are a set time `s'` and a read time `g'` strictly between
`s' + ttl` and `s' + ttl + 1s` at which `Get(k)` still returns `(v, true)`. -/
theorem C18_staleness_below_one_second {V : Type} (c c1 : SieveCache V) (k : String)
    (v : Any V) (s g : Time) (ops : List (Op V))
    (httl : 0 < c.ttl)
    (hadm : c.sieveFilter k v = .ok true)
    (hnowrite : ∀ op ∈ ops, op.writes k = false)
    (hrun : run c (Op.set s k v :: ops) = .ok c1)
    (hg : Time.Add (Time.Add s c.ttl) Second ≤ g) :
    (∃ c0 : SieveCache V, c.Set s k v = .ok c0 ∧
        c0.store.Load k = some { Value := v, Expiration := Time.Unix (Time.Add s c.ttl) } ∧
        Time.Unix (Time.Add s c.ttl) * Second ≤ Time.Add s c.ttl ∧
        Time.Add s c.ttl < (Time.Unix (Time.Add s c.ttl) + 1) * Second) ∧
      (c1.Get g k).1 = (none, false) ∧
      ∃ (s1 g1 : Time) (c2 : SieveCache V),
        0 ≤ s1 ∧ Time.Add s1 c.ttl < g1 ∧ g1 < Time.Add (Time.Add s1 c.ttl) Second ∧
        run c [Op.set s1 k v] = .ok c2 ∧ c2.Get g1 k = ((v, true), c2) := by
  have hset := SieveCache.Set_admitted c s k v hadm
  refine ⟨⟨_, hset, SyncMap.Load_Store_same _ _ _, ?_, ?_⟩, ?_, ?_⟩
  · show (s + c.ttl) / 1000000000 * 1000000000 ≤ s + c.ttl
    exact Int.ediv_mul_le _ (by norm_num)
  · show s + c.ttl < ((s + c.ttl) / 1000000000 + 1) * 1000000000
    exact Int.lt_ediv_add_one_mul_self _ (by norm_num)
  · simp only [run, step, hset] at hrun
    have hexp : Time.Unix (Time.Add s c.ttl) < Time.Unix g :=
      unix_within_next_second (s + c.ttl) g hg
    rcases run_shrinks ops _ c1 k hnowrite hrun with h | h
    · rw [SieveCache.Get_absent c1 g k h]
    · rw [SyncMap.Load_Store_same] at h
      rw [SieveCache.Get_expired c1 g k _ h hexp]
  · have hset1 := SieveCache.Set_admitted c (c.ttl * 999999999) k v hadm
    refine ⟨c.ttl * 999999999, c.ttl * 999999999 + c.ttl + 1,
      { c with store := c.store.Store k
                  ⟨v, Time.Unix (Time.Add (c.ttl * 999999999) c.ttl)⟩ },
      ?_, ?_, ?_, ?_, ?_⟩
    · exact Int.mul_nonneg (le_of_lt httl) (by norm_num)
    · show c.ttl * 999999999 + c.ttl < c.ttl * 999999999 + c.ttl + 1
      exact Int.lt_succ_self _
    · show c.ttl * 999999999 + c.ttl + 1 < c.ttl * 999999999 + c.ttl + 1000000000
      exact Int.add_lt_add_left (by norm_num) _
    · simp only [run, step, hset1]
    · have hlive : Time.Unix (c.ttl * 999999999 + c.ttl + 1) ≤
          Time.Unix (Time.Add (c.ttl * 999999999) c.ttl) := unix_stale_instant c.ttl
      exact SieveCache.Get_live
        { c with store := c.store.Store k
                    ⟨v, Time.Unix (Time.Add (c.ttl * 999999999) c.ttl)⟩ }
        (c.ttl * 999999999 + c.ttl + 1) k
        ⟨v, Time.Unix (Time.Add (c.ttl * 999999999) c.ttl)⟩
        (SyncMap.Load_Store_same c.store k _) hlive

/-- C18 at a ttl of one second: `Set` at the epoch, `Get` two seconds later. -/
theorem C18_staleness_below_one_second_witness :
    (∃ c0 : SieveCache Nat, oneSecondCache.Set 0 "a" (some 7) = .ok c0 ∧
        c0.store.Load "a" =
          some { Value := some 7, Expiration := Time.Unix (Time.Add 0 oneSecondCache.ttl) } ∧
        Time.Unix (Time.Add 0 oneSecondCache.ttl) * Second ≤ Time.Add 0 oneSecondCache.ttl ∧
        Time.Add 0 oneSecondCache.ttl <
          (Time.Unix (Time.Add 0 oneSecondCache.ttl) + 1) * Second) ∧
      (oneSecondCacheA.Get 2000000000 "a").1 = (none, false) ∧
      ∃ (s1 g1 : Time) (c2 : SieveCache Nat),
        0 ≤ s1 ∧ Time.Add s1 oneSecondCache.ttl < g1 ∧
        g1 < Time.Add (Time.Add s1 oneSecondCache.ttl) Second ∧
        run oneSecondCache [Op.set s1 "a" (some 7)] = .ok c2 ∧
        c2.Get g1 "a" = ((some 7, true), c2) :=
  C18_staleness_below_one_second oneSecondCache oneSecondCacheA "a" (some 7) 0 2000000000 []
    (by decide) rfl (by simp) rfl (by decide)

/-! ## Facts about entries that stay live through sweeps and reads -/

/-- A sweep pass that visits no expired binding of `key` leaves the entry of `key`
as it was. -/
theorem Range_cleanupVisit_keeps {V : Type} (clock : Nat → Time) (key : String)
    (entries m : SyncMap (CacheItem V)) (i : Nat)
    (h : ∀ q ∈ entries, q.1 = key → ∀ j : Nat, Time.Unix (clock j) ≤ q.2.Expiration) :
    (SyncMap.Range (cleanupVisit clock) entries (m, i)).1.Load key = m.Load key := by
  induction entries generalizing m i with
  | nil => rfl
  | cons p entries ih =>
    obtain ⟨k, item⟩ := p
    have hrest : ∀ q ∈ entries, q.1 = key →
        ∀ j : Nat, Time.Unix (clock j) ≤ q.2.Expiration :=
      fun q hq => h q (List.mem_cons_of_mem _ hq)
    by_cases hexp : Time.Unix (clock i) > item.Expiration
    · have hk : k ≠ key := by
        intro hk
        exact absurd (h (k, item) (List.mem_cons_self _ _) hk i) (not_le.mpr hexp)
      simp only [SyncMap.Range, cleanupVisit, hexp, if_true]
      rw [ih (m.Delete k) (i + 1) hrest]
      exact SyncMap.Load_Delete_other _ _ _ hk
    · simp only [SyncMap.Range, cleanupVisit, hexp, if_false]
      exact ih m (i + 1) hrest

/-- On a well-formed map, a sweep pass whose clock readings are not past the
expiration second of the entry of `key` keeps that entry. -/
theorem cleanupTick_keeps {V : Type} (c : SieveCache V) (clock : Nat → Time)
    (key : String) (e : CacheItem V) (hwf : c.store.WF) (hload : c.store.Load key = some e)
    (hclock : ∀ j : Nat, Time.Unix (clock j) ≤ e.Expiration) :
    (c.cleanupTick clock).store.Load key = some e := by
  have hkeep := Range_cleanupVisit_keeps clock key c.store c.store 0 (by
    intro q hq hqk j
    have hmem : (key, e) ∈ c.store := SyncMap.mem_of_Load _ _ _ hload
    have heq : q = (key, e) := List.inj_on_of_nodup_map hwf hq hmem hqk
    rw [heq]
    exact hclock j)
  simp only [SieveCache.cleanupTick]
  rw [hkeep]
  exact hload

/-- A call that is neither a `Set` nor a `Delete` of `key`, and that reads the
clock no later than the expiration second of the entry of `key`, keeps that entry. -/
theorem step_keeps_live {V : Type} (c c1 : SieveCache V) (op : Op V) (key : String)
    (e : CacheItem V) (hwf : c.store.WF) (hload : c.store.Load key = some e)
    (hw : op.writes key = false) (hd : op ≠ Op.delete key)
    (hget : ∀ t : Time, op = Op.get t key → Time.Unix t ≤ e.Expiration)
    (hsweep : ∀ clock : Nat → Time, op = Op.sweep clock →
      ∀ j : Nat, Time.Unix (clock j) ≤ e.Expiration)
    (hstep : step c op = .ok c1) :
    c1.store.WF ∧ c1.store.Load key = some e := by
  refine ⟨step_WF c c1 op hstep hwf, ?_⟩
  cases op with
  | set now k value =>
    have hne : k ≠ key := by simpa [Op.writes] using hw
    rw [(step_frame c c1 _ key (by simpa [Op.touches] using hne) hstep).1]
    exact hload
  | get now k =>
    by_cases hk : k = key
    · subst hk
      simp only [step, SieveCache.Get_live c now k e hload (hget now rfl)] at hstep
      cases hstep
      exact hload
    · rw [(step_frame c c1 _ key (by simpa [Op.touches] using hk) hstep).1]
      exact hload
  | delete k =>
    have hk : k ≠ key := fun h => hd (by rw [h])
    simp only [step, SieveCache.Delete] at hstep
    cases hstep
    exact (SyncMap.Load_Delete_other _ _ _ hk).trans hload
  | sweep clock =>
    simp only [step] at hstep
    cases hstep
    exact cleanupTick_keeps c clock key e hwf hload (hsweep clock rfl)
  | stop =>
    rw [(step_frame c c1 Op.stop key rfl hstep).1]
    exact hload

theorem run_keeps_live {V : Type} (ops : List (Op V)) (c c1 : SieveCache V) (key : String)
    (e : CacheItem V) (hwf : c.store.WF) (hload : c.store.Load key = some e)
    (hops : ∀ op ∈ ops, op.writes key = false ∧ op ≠ Op.delete key ∧
      (∀ t : Time, op = Op.get t key → Time.Unix t ≤ e.Expiration) ∧
      (∀ clock : Nat → Time, op = Op.sweep clock →
        ∀ j : Nat, Time.Unix (clock j) ≤ e.Expiration))
    (hrun : run c ops = .ok c1) :
    c1.store.WF ∧ c1.store.Load key = some e := by
  induction ops generalizing c with
  | nil =>
    simp only [run] at hrun
    cases hrun
    exact ⟨hwf, hload⟩
  | cons op ops ih =>
    simp only [run] at hrun
    split at hrun
    · cases hrun
    · rename_i c0 hc0
      obtain ⟨h1, h2, h3, h4⟩ := hops op (List.mem_cons_self _ _)
      obtain ⟨hwf0, hload0⟩ := step_keeps_live c c0 op key e hwf hload h1 h2 h3 h4 hc0
      exact ih c0 hwf0 hload0 (fun o ho => hops o (List.mem_cons_of_mem _ ho)) hrun

theorem instant_past_of_unix_past (x now : Int) (h : x < now / 1000000000) :
    x * 1000000000 < now := by
  omega

theorem unix_of_whole_second (x : Int) : x * 1000000000 / 1000000000 = x := by
  omega

/-! ## Claims on reads after a write, with the sweeper running -/

/-- C2, amended: after an admitted `Set(k, v)` at `now` and any calls that are not
a `Set` on `k` (sweep passes, `Get`s and `Delete`s included), `Get(k)` at a `g`
whose Unix second is strictly greater than the Unix second of `now + ttl` returns
`(nil, false)` and leaves `k` without an entry.  When moreover the map has one
binding per key, no call in between is a `Delete(k)`, and the `Get(k)` calls and
sweep passes in between read the clock no later than `g`, the `Get` returns
`(nil, false)` exactly in that case, and `(v, true)` otherwise. -/
theorem C2_get_not_found_iff_later_second {V : Type} (c c1 : SieveCache V) (k : String)
    (v : Any V) (now g : Time) (ops : List (Op V))
    (hadm : c.sieveFilter k v = .ok true)
    (hnowrite : ∀ op ∈ ops, op.writes k = false)
    (hrun : run c (Op.set now k v :: ops) = .ok c1) :
    (Time.Unix (Time.Add now c.ttl) < Time.Unix g →
        c1.Get g k = ((none, false), { c1 with store := c1.store.Delete k }) ∧
        (c1.Get g k).2.store.Load k = none) ∧
      (c.store.WF →
        (∀ op ∈ ops, op ≠ Op.delete k ∧
          (∀ t : Time, op = Op.get t k → t ≤ g) ∧
          (∀ clock : Nat → Time, op = Op.sweep clock → ∀ j : Nat, clock j ≤ g)) →
        ((c1.Get g k).1 = (none, false) ↔
          Time.Unix (Time.Add now c.ttl) < Time.Unix g) ∧
        (¬ Time.Unix (Time.Add now c.ttl) < Time.Unix g →
          c1.Get g k = ((v, true), c1))) := by
  simp only [run, step, SieveCache.Set_admitted c now k v hadm] at hrun
  have hlate : Time.Unix (Time.Add now c.ttl) < Time.Unix g →
      c1.Get g k = ((none, false), { c1 with store := c1.store.Delete k }) ∧
      (c1.Get g k).2.store.Load k = none := by
    intro hexp
    rcases run_shrinks ops _ c1 k hnowrite hrun with h | h
    · rw [SieveCache.Get_absent c1 g k h, SyncMap.Delete_of_Load_none _ _ h]
      exact ⟨rfl, h⟩
    · rw [SyncMap.Load_Store_same] at h
      rw [SieveCache.Get_expired c1 g k _ h hexp]
      exact ⟨rfl, SyncMap.Load_Delete_same _ _⟩
  refine ⟨hlate, fun hwf hops => ?_⟩
  have hlive : ¬ Time.Unix (Time.Add now c.ttl) < Time.Unix g →
      c1.Get g k = ((v, true), c1) := by
    intro hnot
    have hle : Time.Unix g ≤ Time.Unix (Time.Add now c.ttl) := not_lt.mp hnot
    obtain ⟨-, hload⟩ := run_keeps_live ops _ c1 k
      { Value := v, Expiration := Time.Unix (Time.Add now c.ttl) }
      (SyncMap.WF_Store _ _ _ hwf) (SyncMap.Load_Store_same _ _ _)
      (fun op hop =>
        ⟨hnowrite op hop, (hops op hop).1,
          fun t ht => le_trans (Time.Unix_mono ((hops op hop).2.1 t ht)) hle,
          fun clock hc j => le_trans (Time.Unix_mono ((hops op hop).2.2 clock hc j)) hle⟩)
      hrun
    exact SieveCache.Get_live c1 g k _ hload hle
  refine ⟨⟨fun h => ?_, fun h => by rw [(hlate h).1]⟩, hlive⟩
  by_contra hcon
  rw [hlive hcon] at h
  simp at h

/-- C2 as amended, at a ttl of one second: `Set` at the epoch, sweep passes at
0.5 s, 1 s and 2.5 s and a `Get` at 0.7 s in between, then `Get` at 3 s. -/
theorem C2_get_not_found_iff_later_second_witness :
    (Time.Unix (Time.Add 0 oneSecondCache.ttl) < Time.Unix 3000000000 →
        oneSecondCache.Get 3000000000 "a" =
          ((none, false), { oneSecondCache with store := oneSecondCache.store.Delete "a" }) ∧
        (oneSecondCache.Get 3000000000 "a").2.store.Load "a" = none) ∧
      (oneSecondCache.store.WF →
        (∀ op ∈ ([Op.sweep (clockAt 500000000), Op.get 700000000 "a",
            Op.sweep (clockAt 1000000000), Op.sweep (clockAt 2500000000)] : List (Op Nat)),
          op ≠ Op.delete "a" ∧
          (∀ t : Time, op = Op.get t "a" → t ≤ 3000000000) ∧
          (∀ clock : Nat → Time, op = Op.sweep clock →
            ∀ j : Nat, clock j ≤ 3000000000)) →
        ((oneSecondCache.Get 3000000000 "a").1 = (none, false) ↔
          Time.Unix (Time.Add 0 oneSecondCache.ttl) < Time.Unix 3000000000) ∧
        (¬ Time.Unix (Time.Add 0 oneSecondCache.ttl) < Time.Unix 3000000000 →
          oneSecondCache.Get 3000000000 "a" = ((some 7, true), oneSecondCache))) :=
  C2_get_not_found_iff_later_second oneSecondCache oneSecondCache "a" (some 7) 0 3000000000
    [Op.sweep (clockAt 500000000), Op.get 700000000 "a", Op.sweep (clockAt 1000000000),
     Op.sweep (clockAt 2500000000)]
    rfl
    (by
      intro op hop
      simp only [List.mem_cons, List.mem_singleton, List.not_mem_nil, or_false] at hop
      rcases hop with h | h | h | h <;> subst h <;> rfl)
    rfl

/-- C5: let the map have one binding per key.  After an admitted `Set(k, v)` at
`s`, followed by calls none of which is a `Set` or a `Delete` of `k` and whose
`Get(k)` calls and sweep passes read the clock no later than `s + ttl`, `Get(k)`
at exactly `s + ttl` returns `(v, true)` and leaves the store unchanged, and a
sweep pass at exactly `s + ttl` keeps the entry too.  In every store state where
`k` has an entry, `Get(k)` reports not-found exactly when the Unix second of the
read is strictly greater than the stored expiration; when the two are equal it
returns the value and leaves the store unchanged.  So a not-found report implies
that the read instant is strictly after the expiration instant, and a read at
exactly the expiration instant returns the value. -/
theorem C5_valid_at_expiration_instant {V : Type} (c c1 : SieveCache V) (k : String)
    (v : Any V) (s : Time) (ops : List (Op V))
    (hwf : c.store.WF)
    (hadm : c.sieveFilter k v = .ok true)
    (hops : ∀ op ∈ ops, op.writes k = false ∧ op ≠ Op.delete k ∧
      (∀ t : Time, op = Op.get t k → t ≤ Time.Add s c.ttl) ∧
      (∀ clock : Nat → Time, op = Op.sweep clock → ∀ j : Nat, clock j ≤ Time.Add s c.ttl))
    (hrun : run c (Op.set s k v :: ops) = .ok c1) :
    c1.Get (Time.Add s c.ttl) k = ((v, true), c1) ∧
      (c1.cleanupTick (clockAt (Time.Add s c.ttl))).store.Load k =
        some { Value := v, Expiration := Time.Unix (Time.Add s c.ttl) } ∧
      ∀ (d : SieveCache V) (now : Time) (e : CacheItem V), d.store.Load k = some e →
        (((d.Get now k).1.2 = false ↔ e.Expiration < Time.Unix now)) ∧
        (Time.Unix now = e.Expiration → d.Get now k = ((e.Value, true), d)) ∧
        ((d.Get now k).1.2 = false → e.Expiration * Second < now) ∧
        (now = e.Expiration * Second → d.Get now k = ((e.Value, true), d)) := by
  simp only [run, step, SieveCache.Set_admitted c s k v hadm] at hrun
  obtain ⟨hwf1, hload⟩ := run_keeps_live ops _ c1 k
    { Value := v, Expiration := Time.Unix (Time.Add s c.ttl) }
    (SyncMap.WF_Store _ _ _ hwf) (SyncMap.Load_Store_same _ _ _)
    (fun op hop =>
      ⟨(hops op hop).1, (hops op hop).2.1,
        fun t ht => Time.Unix_mono ((hops op hop).2.2.1 t ht),
        fun clock hc j => Time.Unix_mono ((hops op hop).2.2.2 clock hc j)⟩)
    hrun
  refine ⟨SieveCache.Get_live c1 _ k _ hload (le_refl _),
    cleanupTick_keeps c1 _ k _ hwf1 hload (fun _ => le_refl _), fun d now e hd => ?_⟩
  have hiff : (d.Get now k).1.2 = false ↔ e.Expiration < Time.Unix now := by
    by_cases hx : e.Expiration < Time.Unix now
    · simp [SieveCache.Get_expired d now k e hd hx, hx]
    · simp [SieveCache.Get_live d now k e hd (not_lt.mp hx), hx]
  refine ⟨hiff, fun h => SieveCache.Get_live d now k e hd (le_of_eq h),
    fun h => instant_past_of_unix_past e.Expiration now (hiff.mp h), fun h => ?_⟩
  have hunix : Time.Unix now = e.Expiration := by
    rw [h]
    exact unix_of_whole_second e.Expiration
  exact SieveCache.Get_live d now k e hd (le_of_eq hunix)

/-- C5 at a ttl of one second: `Set` at the epoch, sweep passes at 0.5 s and at
exactly 1 s and a `Get` at 0.7 s in between, then `Get` at exactly one second. -/
theorem C5_valid_at_expiration_instant_witness :
    oneSecondCacheA.Get (Time.Add 0 oneSecondCache.ttl) "a" =
        ((some 7, true), oneSecondCacheA) ∧
      (oneSecondCacheA.cleanupTick (clockAt (Time.Add 0 oneSecondCache.ttl))).store.Load "a" =
        some { Value := some 7, Expiration := Time.Unix (Time.Add 0 oneSecondCache.ttl) } ∧
      ∀ (d : SieveCache Nat) (now : Time) (e : CacheItem Nat), d.store.Load "a" = some e →
        (((d.Get now "a").1.2 = false ↔ e.Expiration < Time.Unix now)) ∧
        (Time.Unix now = e.Expiration → d.Get now "a" = ((e.Value, true), d)) ∧
        ((d.Get now "a").1.2 = false → e.Expiration * Second < now) ∧
        (now = e.Expiration * Second → d.Get now "a" = ((e.Value, true), d)) :=
  C5_valid_at_expiration_instant oneSecondCache oneSecondCacheA "a" (some 7) 0
    [Op.sweep (clockAt 500000000), Op.get 700000000 "a", Op.sweep (clockAt 1000000000)]
    (by decide) rfl
    (by
      intro op hop
      simp only [List.mem_cons, List.mem_singleton, List.not_mem_nil, or_false] at hop
      rcases hop with h | h | h <;> subst h
      · refine ⟨rfl, ?_, ?_, ?_⟩
        · intro h
          cases h
        · intro t h
          cases h
        · intro clock h
          cases h
          intro j
          show (500000000 : Int) ≤ Time.Add 0 oneSecondCache.ttl
          decide
      · refine ⟨rfl, ?_, ?_, ?_⟩
        · intro h
          cases h
        · intro t h
          cases h
          decide
        · intro clock h
          cases h
      · refine ⟨rfl, ?_, ?_, ?_⟩
        · intro h
          cases h
        · intro t h
          cases h
        · intro clock h
          cases h
          intro j
          show (1000000000 : Int) ≤ Time.Add 0 oneSecondCache.ttl
          decide)
    rfl

end Sieve
